import Mathlib

/-!
Verification of the discrete Bayesian-network inference engine of
src/Proyecto3.py (class `Nodo`, class `RedBayesiana` and its enumeration
inference).  Python dictionaries (which preserve insertion order) are
embedded as association lists, floats as exact rationals, and raised
exceptions as an `Except` error monad distinguishing the `KeyError` /
`ValueError` classes.
-/

set_option maxHeartbeats 1000000

/-- Lookup in an insertion-ordered association list (Python `d[k]`,
returning `none` where Python raises `KeyError`). -/
def lookupA {κ α : Type} [DecidableEq κ] (l : List (κ × α)) (k : κ) : Option α :=
  (l.find? (fun par => decide (par.1 = k))).map (·.2)

/-- Store in an insertion-ordered association list (Python `d[k] = v`):
an existing key keeps its position, a new key is appended at the end. -/
def pongaA {κ α : Type} [DecidableEq κ] : List (κ × α) → κ → α → List (κ × α)
  | [], k, v => [(k, v)]
  | par :: resto, k, v =>
    if par.1 = k then (k, v) :: resto else par :: pongaA resto k v

/-- Error classes of the Python exceptions that the program raises. -/
inductive PyErr : Type where
  | keyError : String → PyErr
  | valueError : String → PyErr
deriving DecidableEq, Repr

/-- A node of the network: name, ordered domain, ordered parent list and
conditional probability table keyed by tuples of parent values
(class `Nodo` of the source). -/
structure Nodo : Type where
  nombre : String
  valores : List String
  padres : List String
  cpt : List (List String × List (String × ℚ))
deriving DecidableEq, Repr

/-- The Bayesian network: the insertion-ordered node dictionary and the
derived parent-to-children adjacency (class `RedBayesiana`). -/
structure Red : Type where
  nodos : List (String × Nodo)
  hijos : List (String × List String)
deriving DecidableEq, Repr

/-- Tolerance `1e-6` used by the sum-to-one checks. -/
def tolerancia : ℚ := 1 / 1000000

/-- Key list of the node dictionary. -/
def claves (red : Red) : List String := red.nodos.map Prod.fst

/-- Parent list of a named node (empty when the node is absent). -/
def padresDe (red : Red) (x : String) : List String :=
  match lookupA red.nodos x with
  | some nodo => nodo.padres
  | none => []

/-- Declared domain of a named node (empty when the node is absent). -/
def valoresDe (red : Red) (x : String) : List String :=
  match lookupA red.nodos x with
  | some nodo => nodo.valores
  | none => []

/-- Children list of a named node (`self.hijos.get(nombre, [])`). -/
def hijosDe (red : Red) (x : String) : List String :=
  match lookupA red.hijos x with
  | some l => l
  | none => []

/-- `RedBayesiana.agregar_arista`: records the edge `padre -> hijo`,
creating either endpoint with an empty domain when absent, and avoiding
duplicate entries in both adjacency directions. -/
def agregar_arista (red : Red) (padre hijo : String) : Red :=
  let nodos1 := if (lookupA red.nodos padre).isSome then red.nodos
    else red.nodos ++ [(padre, ⟨padre, [], [], []⟩)]
  let nodos2 := if (lookupA nodos1 hijo).isSome then nodos1
    else nodos1 ++ [(hijo, ⟨hijo, [], [], []⟩)]
  let nodos3 := match lookupA nodos2 hijo with
    | some nh =>
      if padre ∈ nh.padres then nodos2
      else pongaA nodos2 hijo { nh with padres := nh.padres ++ [padre] }
    | none => nodos2
  let hijos1 := if (lookupA red.hijos padre).isSome then red.hijos
    else red.hijos ++ [(padre, [])]
  let hijos2 := match lookupA hijos1 padre with
    | some lh => if hijo ∈ lh then hijos1 else pongaA hijos1 padre (lh ++ [hijo])
    | none => hijos1
  { nodos := nodos3, hijos := hijos2 }

/-- `RedBayesiana.definir_info_nodo`: declares the domain of a node,
creating the node when absent. -/
def definir_info_nodo (red : Red) (nombre : String) (valores : List String) : Red :=
  match lookupA red.nodos nombre with
  | none => { red with nodos := red.nodos ++ [(nombre, ⟨nombre, valores, [], []⟩)] }
  | some nodo =>
    { red with nodos := pongaA red.nodos nombre { nodo with valores := valores } }

/-- `RedBayesiana.definir_entrada_cpt`: stores one CPT row after checking
that its probabilities sum to 1 within `1e-6`; looks the node up first
(`self.nodos[nombre]`), so an absent node is a `KeyError` before any
check runs. -/
def definir_entrada_cpt (red : Red) (nombre : String) (valoresPadres : List String)
    (probabilidadesValores : List (String × ℚ)) : Except PyErr Red :=
  match lookupA red.nodos nombre with
  | none => .error (.keyError nombre)
  | some nodo =>
    let total := (probabilidadesValores.map (·.2)).sum
    if |total - 1| > tolerancia then
      .error (.valueError ("CPT para nodo " ++ nombre ++ " no suma 1"))
    else
      let nodo2 : Nodo := { nodo with cpt := pongaA nodo.cpt valoresPadres probabilidadesValores }
      .ok { red with nodos := pongaA red.nodos nombre nodo2 }

/-- One dequeue of Kahn's algorithm: decrement the in-degree of each
child of the dequeued node, enqueueing a child exactly when its degree
reaches 0 (the inner `for hijo in self.hijos.get(...)` loop). -/
def kahnPaso (grado : List (String × Int)) (cola : List String) :
    List String → Except PyErr (List (String × Int) × List String)
  | [] => .ok (grado, cola)
  | h :: resto =>
    match lookupA grado h with
    | none => .error (.keyError h)
    | some d =>
      kahnPaso (pongaA grado h (d - 1)) (if d - 1 = 0 then cola ++ [h] else cola) resto

/-- The `while cola:` loop of `orden_topologico`.  The fuel bounds the
number of dequeues: a node enters the queue at most once (initially at
degree 0, or at the unique moment its strictly decreasing degree reaches
0), so `|nodos| + |cola|` iterations always suffice and the fuel-exhausted
branch is unreachable. -/
def kahnLoop (red : Red) : Nat → List (String × Int) → List String → List String →
    Except PyErr (List String)
  | _, _, [], orden => .ok orden
  | 0, _, _ :: _, orden => .ok orden
  | fuel + 1, grado, c :: resto, orden =>
    match kahnPaso grado resto (hijosDe red c) with
    | .error e => .error e
    | .ok (grado2, cola2) => kahnLoop red fuel grado2 cola2 (orden ++ [c])

/-- `RedBayesiana.orden_topologico`: Kahn's algorithm; initial degrees
are the parent counts, the initial queue holds the zero-degree nodes in
insertion order, and a result visiting fewer nodes than the network has
is reported as a cycle (`ValueError`). -/
def orden_topologico (red : Red) : Except PyErr (List String) :=
  let grado : List (String × Int) := red.nodos.map (fun xn => (xn.1, (xn.2.padres.length : Int)))
  let cola := (grado.filter (fun xd => decide (xd.2 = 0))).map (·.1)
  match kahnLoop red (grado.length + cola.length) grado cola [] with
  | .error e => .error e
  | .ok orden =>
    if orden.length = red.nodos.length then .ok orden
    else .error (.valueError "La red tiene ciclos")

/-- The accumulation of parent-value combinations in `validar_red`:
`combinaciones = [[]]`, then for each parent every combination is
extended by every value of that parent (`KeyError` when a parent is not
a node of the network, as in `self.nodos[padre_nombre]`). -/
def combosDesde (red : Red) (acc : List (List String)) :
    List String → Except PyErr (List (List String))
  | [] => .ok acc
  | p :: resto =>
    match lookupA red.nodos p with
    | none => .error (.keyError p)
    | some padre =>
      combosDesde red (acc.flatMap (fun comb => padre.valores.map (fun v => comb ++ [v]))) resto

/-- The per-combination CPT coverage check of `validar_red`. -/
def checaCombos (nodo : Nodo) (nombre : String) : List (List String) → Except PyErr Unit
  | [] => .ok ()
  | c :: resto =>
    if (lookupA nodo.cpt c).isSome then checaCombos nodo nombre resto
    else .error (.valueError ("Falta entrada CPT para nodo " ++ nombre))

/-- The per-row sum-to-one re-check of `validar_red`. -/
def checaFilas (nombre : String) : List (List String × List (String × ℚ)) → Except PyErr Unit
  | [] => .ok ()
  | fila :: resto =>
    if |(fila.2.map (·.2)).sum - 1| > tolerancia then
      .error (.valueError ("CPT para nodo " ++ nombre ++ " no suma 1"))
    else checaFilas nombre resto

/-- The body of `validar_red` for one node: nonempty domain, CPT coverage
of every parent combination (or of the empty tuple for a root), then the
row sums. -/
def validar_nodo (red : Red) (nombre : String) (nodo : Nodo) : Except PyErr Unit :=
  if nodo.valores = [] then
    .error (.valueError ("El nodo " ++ nombre ++ " no tiene valores definidos"))
  else
    match (match nodo.padres with
      | [] =>
        if (lookupA nodo.cpt []).isSome then Except.ok ()
        else Except.error (PyErr.valueError ("Falta CPT para nodo raiz " ++ nombre))
      | _ :: _ =>
        match combosDesde red [[]] nodo.padres with
        | .error e => Except.error e
        | .ok combos => checaCombos nodo nombre combos) with
    | .error e => .error e
    | .ok () => checaFilas nombre nodo.cpt

/-- The `for nombre, nodo in self.nodos.items()` loop of `validar_red`. -/
def validarLista (red : Red) : List (String × Nodo) → Except PyErr Unit
  | [] => .ok ()
  | (nombre, nodo) :: resto =>
    match validar_nodo red nombre nodo with
    | .error e => .error e
    | .ok () => validarLista red resto

/-- `RedBayesiana.validar_red`. -/
def validar_red (red : Red) : Except PyErr Unit := validarLista red red.nodos

/-- The parent-value tuple `tuple(asignacion_padres[p] for p in padres)`
built inside `Nodo.probabilidad`: a missing parent is a `KeyError`. -/
def clavePadres (padres : List String) (asig : List (String × String)) :
    Except PyErr (List String) :=
  match padres with
  | [] => .ok []
  | p :: resto =>
    match lookupA asig p with
    | none => .error (.keyError p)
    | some v =>
      match clavePadres resto asig with
      | .error e => .error e
      | .ok vs => .ok (v :: vs)

/-- `Nodo.probabilidad`: the exact CPT lookup
`self.cpt[clave][valor]`, a `KeyError` when either level misses. -/
def Nodo.probabilidad (nodo : Nodo) (valor : String) (asigPadres : List (String × String)) :
    Except PyErr ℚ :=
  match clavePadres nodo.padres asigPadres with
  | .error e => .error e
  | .ok clave =>
    match lookupA nodo.cpt clave with
    | none => .error (.keyError nodo.nombre)
    | some fila =>
      match lookupA fila valor with
      | none => .error (.keyError nodo.nombre)
      | some p => .ok p

/-- The hidden-variable summation loop of `_enumerar_todas`: for each
value of the current node, multiply its conditional probability by the
recursive enumeration (passed as `sigue`) under the extended assignment,
and add the branches left to right. -/
def sumaOculta (nodo : Nodo) (asig : List (String × String)) (v : String)
    (cond : List (String × String)) (sigue : List (String × String) → Except PyErr ℚ) :
    List String → Except PyErr ℚ
  | [] => .ok 0
  | y :: ys =>
    match nodo.probabilidad y asig with
    | .error e => .error e
    | .ok pr =>
      match sigue (pongaA cond v y) with
      | .error e => .error e
      | .ok sub =>
        match sumaOculta nodo asig v cond sigue ys with
        | .error e => .error e
        | .ok t => .ok (pr * sub + t)

/-- `RedBayesiana._enumerar_todas`: recursive enumeration over the
remaining variables; an observed variable contributes its fixed factor,
a hidden one is summed over its domain. -/
def enumerar_todas (red : Red) : List String → List (String × String) → Except PyErr ℚ
  | [], _ => .ok 1
  | v :: resto, cond =>
    match lookupA red.nodos v with
    | none => .error (.keyError v)
    | some nodo =>
      let asig := nodo.padres.filterMap (fun p => (lookupA cond p).map (fun w => (p, w)))
      match lookupA cond v with
      | some valObs =>
        match nodo.probabilidad valObs asig with
        | .error e => .error e
        | .ok pr =>
          match enumerar_todas red resto cond with
          | .error e => .error e
          | .ok q => .ok (pr * q)
      | none => sumaOculta nodo asig v cond (fun c => enumerar_todas red resto c) nodo.valores

/-- The `for valor in nodo_consulta.valores` loop of
`inferencia_por_enumeracion` building the unnormalized score dictionary. -/
def distribucionCruda (red : Red) (consulta : String) (observadas : List (String × String))
    (orden : List String) (acc : List (String × ℚ)) :
    List String → Except PyErr (List (String × ℚ))
  | [] => .ok acc
  | v :: vs =>
    match enumerar_todas red orden (pongaA observadas consulta v) with
    | .error e => .error e
    | .ok q => distribucionCruda red consulta observadas orden (pongaA acc v q) vs

/-- `RedBayesiana.inferencia_por_enumeracion`: unknown query variables
are a `KeyError`; the raw scores are normalized by their sum, and a zero
sum is a `ValueError` surfaced to the caller. -/
def inferencia_por_enumeracion (red : Red) (consulta : String)
    (observadas : List (String × String)) : Except PyErr (List (String × ℚ)) :=
  match lookupA red.nodos consulta with
  | none => .error (.keyError ("Variable de consulta " ++ consulta ++ " no existe en la red"))
  | some nodoConsulta =>
    match orden_topologico red with
    | .error e => .error e
    | .ok orden =>
      match distribucionCruda red consulta observadas orden [] nodoConsulta.valores with
      | .error e => .error e
      | .ok dist =>
        let total := (dist.map (·.2)).sum
        if total = 0 then
          .error (.valueError "La probabilidad total es 0")
        else
          .ok (dist.map (fun par => (par.1, par.2 / total)))

/-! ### Derived relations on a network -/

/-- `p` is a parent of `c` in the node dictionary (a directed edge `p -> c`). -/
def Edge (red : Red) (p c : String) : Prop := p ∈ padresDe red c

/-- Nonempty directed paths along `Edge`. -/
inductive AlcanzaMas (red : Red) : String → String → Prop where
  | base {p c : String} : Edge red p c → AlcanzaMas red p c
  | paso {p q c : String} : Edge red p q → AlcanzaMas red q c → AlcanzaMas red p c

/-- The parent/child relation has a directed cycle. -/
def TieneCiclo (red : Red) : Prop := ∃ x, AlcanzaMas red x x

/-- The parent/child relation is acyclic. -/
def Aciclica (red : Red) : Prop := ¬ TieneCiclo red

/-- Every node of the list has all the parents of its node dictionary
entry strictly before it. -/
def PadresAntes (red : Red) (l : List String) : Prop :=
  ∀ a x b, l = a ++ x :: b → ∀ p ∈ padresDe red x, p ∈ a

/-- A valid topological ordering: every node exactly once, parents
always before children. -/
def EsOrdenTopologico (red : Red) (l : List String) : Prop :=
  l.Perm (claves red) ∧ PadresAntes red l

/-- Executable check behind `PadresAntes` (used to discharge concrete
instances). -/
def padresAntesB (red : Red) : List String → List String → Bool
  | _, [] => true
  | vistos, c :: resto =>
    (padresDe red c).all (fun p => decide (p ∈ vistos)) && padresAntesB red (vistos ++ [c]) resto

/-- Consistency invariants that `RedBayesiana` maintains through its
construction interface: distinct dictionary keys, duplicate-free edge
records, and the two adjacency directions mirroring each other. -/
def Consistente (red : Red) : Prop :=
  (claves red).Nodup ∧
  (red.hijos.map Prod.fst).Nodup ∧
  (∀ ph ∈ red.hijos, ph.2.Nodup ∧ ∀ c ∈ ph.2, c ∈ claves red ∧ ph.1 ∈ padresDe red c) ∧
  (∀ xn ∈ red.nodos, xn.2.padres.Nodup ∧
    ∀ p ∈ xn.2.padres, p ∈ claves red ∧ xn.1 ∈ hijosDe red p)

/-- Every probability stored in a CPT is nonnegative. -/
def CptNoNeg (red : Red) : Prop :=
  ∀ xn ∈ red.nodos, ∀ fila ∈ xn.2.cpt, ∀ par ∈ fila.2, 0 ≤ par.2

/-- Every parent named by a node is itself a node of the network. -/
def ClausuradaPadres (red : Red) : Prop :=
  ∀ xn ∈ red.nodos, ∀ p ∈ xn.2.padres, p ∈ claves red

/-- Every value keyed inside a CPT row belongs to the declared domain of
its node. -/
def CptValoresEnDominio (red : Red) : Prop :=
  ∀ xn ∈ red.nodos, ∀ fila ∈ xn.2.cpt, ∀ par ∈ fila.2, par.1 ∈ xn.2.valores

/-- The validation conditions as the specification words them for one
node: a nonempty domain, the empty tuple keyed for a root, every
member of the Cartesian product of the parents' domains keyed for an
inner node, and every row summing to 1 within the tolerance. -/
def NodoValidoSpec (red : Red) (nodo : Nodo) : Prop :=
  nodo.valores ≠ [] ∧
  (nodo.padres = [] → [] ∈ nodo.cpt.map Prod.fst) ∧
  (nodo.padres ≠ [] → ∀ combo : List String,
    List.Forall₂ (fun p v => v ∈ valoresDe red p) nodo.padres combo →
    combo ∈ nodo.cpt.map Prod.fst) ∧
  (∀ fila ∈ nodo.cpt, |(fila.2.map (·.2)).sum - 1| ≤ tolerancia)

/-! ### Concrete networks used as witnesses and counterexamples -/

/-- Root node of the Rain -> Umbrella chain of the specification. -/
def nodoRain : Nodo := ⟨"Rain", ["yes", "no"], [], [([], [("yes", 1/5), ("no", 4/5)])]⟩

/-- Child node of the Rain -> Umbrella chain of the specification. -/
def nodoUmbrella : Nodo :=
  ⟨"Umbrella", ["yes", "no"], ["Rain"],
    [(["yes"], [("yes", 9/10), ("no", 1/10)]), (["no"], [("yes", 1/5), ("no", 4/5)])]⟩

/-- The two-node chain Rain -> Umbrella of the specification. -/
def redRU : Red := ⟨[("Rain", nodoRain), ("Umbrella", nodoUmbrella)], [("Rain", ["Umbrella"])]⟩

/-- A one-node network whose single CPT row sums to 1 but holds a
negative probability. -/
def redNeg : Red :=
  ⟨[("A", ⟨"A", ["y", "n"], [], [([], [("y", 3/2), ("n", -(1/2))])]⟩)], []⟩

/-- A two-node network with the directed cycle A -> B -> A and complete,
well-summing CPTs. -/
def redCiclo : Red :=
  ⟨[("A", ⟨"A", ["t", "f"], ["B"],
      [(["t"], [("t", 1/2), ("f", 1/2)]), (["f"], [("t", 1/2), ("f", 1/2)])]⟩),
    ("B", ⟨"B", ["t", "f"], ["A"],
      [(["t"], [("t", 1/2), ("f", 1/2)]), (["f"], [("t", 1/2), ("f", 1/2)])]⟩)],
   [("A", ["B"]), ("B", ["A"])]⟩

/-- Two independent root nodes, a network with two topological orders. -/
def redPar : Red :=
  ⟨[("A", ⟨"A", ["y", "n"], [], [([], [("y", 1/2), ("n", 1/2)])]⟩),
    ("B", ⟨"B", ["y", "n"], [], [([], [("y", 1/4), ("n", 3/4)])]⟩)], []⟩

/-- Two independent roots where the value n of A carries probability 0,
so evidence A = n has zero total probability. -/
def redCero : Red :=
  ⟨[("A", ⟨"A", ["y", "n"], [], [([], [("y", 1), ("n", 0)])]⟩),
    ("B", ⟨"B", ["y", "n"], [], [([], [("y", 1/2), ("n", 1/2)])]⟩)], []⟩

/-- The factor contributed by one variable of the ordering when the
assignment already binds it: the node lookup, the bound value and its
conditional probability, exactly as the observed branch of
`_enumerar_todas` computes them. -/
def factorObs (red : Red) (cond : List (String × String)) (v : String) : Except PyErr ℚ :=
  match lookupA red.nodos v with
  | none => .error (.keyError v)
  | some nodo =>
    match lookupA cond v with
    | none => .error (.keyError v)
    | some valObs =>
      nodo.probabilidad valObs
        (nodo.padres.filterMap (fun p => (lookupA cond p).map (fun w => (p, w))))

/-- Left-to-right product of the factors of a list of bound variables. -/
def productoExc (red : Red) (cond : List (String × String)) : List String → Except PyErr ℚ
  | [] => .ok 1
  | v :: resto =>
    match factorObs red cond v with
    | .error e => .error e
    | .ok pr =>
      match productoExc red cond resto with
      | .error e => .error e
      | .ok q => .ok (pr * q)

/-- Number of entries with a still positive degree. -/
def positivos (g : List (String × Int)) : Nat :=
  (g.filter (fun xd => decide (0 < xd.2))).length

/-- Effect of processing a duplicate-free children list: every listed
key is decremented once. -/
def ajustaGrado (g : List (String × Int)) (hs : List String) : List (String × Int) :=
  g.map (fun xd => if xd.1 ∈ hs then (xd.1, xd.2 - 1) else xd)

/-- Loop invariant of Kahn's algorithm as implemented by
`orden_topologico`: the degree table stores, for each node, how many of
its parents have not been emitted yet; the queue holds exactly nodes
whose parents are all emitted; the emitted prefix is already
topologically sorted; and nodes neither emitted nor queued still have an
unemitted parent. -/
structure InvKahn (red : Red) (grado : List (String × Int)) (cola orden : List String) :
    Prop where
  claves_eq : grado.map Prod.fst = claves red
  vals : ∀ x d, lookupA grado x = some d →
    d = (((padresDe red x).filter (fun p => decide (p ∉ orden))).length : Int)
  cola_nodup : cola.Nodup
  orden_nodup : orden.Nodup
  cola_orden : ∀ x ∈ cola, x ∉ orden
  cola_claves : ∀ x ∈ cola, x ∈ claves red
  cola_padres : ∀ x ∈ cola, ∀ p ∈ padresDe red x, p ∈ orden
  orden_claves : ∀ x ∈ orden, x ∈ claves red
  orden_topo : PadresAntes red orden
  atascado : ∀ x ∈ claves red, x ∉ orden → x ∉ cola → ∃ p ∈ padresDe red x, p ∉ orden

/-- `y` occurs strictly before every occurrence of `x` in `l`. -/
def Antes (l : List String) (y x : String) : Prop :=
  ∀ a b, l = a ++ x :: b → y ∈ a

/-- The network with one CPT row of one node replaced, the update that
definir_entrada_cpt performs when the sum check passes. -/
def conFilaCpt (red : Red) (nombre : String) (nodo : Nodo) (vp : List String)
    (probs : List (String × ℚ)) : Red :=
  let nodo2 : Nodo := { nodo with cpt := pongaA nodo.cpt vp probs }
  { red with nodos := pongaA red.nodos nombre nodo2 }

/-! ### Association list lemmas -/

theorem lookupA_nil {κ α : Type} [DecidableEq κ] (k : κ) :
    lookupA ([] : List (κ × α)) k = none := rfl

theorem lookupA_cons {κ α : Type} [DecidableEq κ] (k' : κ) (v : α) (l : List (κ × α)) (k : κ) :
    lookupA ((k', v) :: l) k = if k' = k then some v else lookupA l k := by
  simp only [lookupA, List.find?]
  by_cases h : k' = k
  · simp [h]
  · simp [h]

theorem lookupA_isSome_iff {κ α : Type} [DecidableEq κ] (l : List (κ × α)) (k : κ) :
    (lookupA l k).isSome ↔ k ∈ l.map Prod.fst := by
  induction l with
  | nil => simp [lookupA_nil]
  | cons par resto ih =>
    obtain ⟨k', v⟩ := par
    rw [lookupA_cons]
    by_cases h : k' = k
    · simp [h]
    · simp [h, ih, Ne.symm h]

theorem lookupA_eq_none_iff {κ α : Type} [DecidableEq κ] (l : List (κ × α)) (k : κ) :
    lookupA l k = none ↔ k ∉ l.map Prod.fst := by
  rw [← lookupA_isSome_iff, Option.isSome_iff_exists]
  cases lookupA l k <;> simp

theorem lookupA_mem {κ α : Type} [DecidableEq κ] {l : List (κ × α)} {k : κ} {v : α}
    (h : lookupA l k = some v) : (k, v) ∈ l := by
  induction l with
  | nil => simp [lookupA_nil] at h
  | cons par resto ih =>
    obtain ⟨k', v'⟩ := par
    rw [lookupA_cons] at h
    by_cases hk : k' = k
    · subst hk
      simp at h
      simp [h]
    · rw [if_neg hk] at h
      exact List.mem_cons_of_mem _ (ih h)

theorem lookupA_pongaA_self {κ α : Type} [DecidableEq κ] (l : List (κ × α)) (k : κ) (v : α) :
    lookupA (pongaA l k v) k = some v := by
  induction l with
  | nil => simp [pongaA, lookupA_cons]
  | cons par resto ih =>
    obtain ⟨k', v'⟩ := par
    by_cases h : k' = k
    · simp [pongaA, h, lookupA_cons]
    · rw [pongaA, if_neg h, lookupA_cons, if_neg h]
      exact ih

theorem lookupA_pongaA_ne {κ α : Type} [DecidableEq κ] (l : List (κ × α)) (k k' : κ) (v : α)
    (h : k' ≠ k) : lookupA (pongaA l k v) k' = lookupA l k' := by
  induction l with
  | nil =>
    rw [pongaA, lookupA_cons, lookupA_nil, if_neg (fun hh => h hh.symm)]
  | cons par resto ih =>
    obtain ⟨k0, v0⟩ := par
    by_cases hk : k0 = k
    · subst hk
      rw [pongaA, if_pos rfl, lookupA_cons, lookupA_cons,
        if_neg (fun hh => h hh.symm), if_neg (fun hh => h hh.symm)]
    · rw [pongaA, if_neg hk, lookupA_cons, lookupA_cons]
      by_cases h0 : k0 = k'
      · rw [if_pos h0, if_pos h0]
      · rw [if_neg h0, if_neg h0, ih]

theorem mem_pongaA {κ α : Type} [DecidableEq κ] {l : List (κ × α)} {k : κ} {v : α} {par : κ × α}
    (h : par ∈ pongaA l k v) : par = (k, v) ∨ par ∈ l := by
  induction l with
  | nil => simpa [pongaA] using h
  | cons par0 resto ih =>
    by_cases hk : par0.1 = k
    · rw [pongaA, if_pos hk] at h
      rcases List.mem_cons.mp h with h' | h'
      · exact Or.inl h'
      · exact Or.inr (List.mem_cons_of_mem _ h')
    · rw [pongaA, if_neg hk] at h
      rcases List.mem_cons.mp h with h' | h'
      · exact Or.inr (by simp [h'])
      · rcases ih h' with h2 | h2
        · exact Or.inl h2
        · exact Or.inr (List.mem_cons_of_mem _ h2)

theorem pongaA_map_fst_of_mem {κ α : Type} [DecidableEq κ] {l : List (κ × α)} {k : κ} (v : α)
    (h : k ∈ l.map Prod.fst) : (pongaA l k v).map Prod.fst = l.map Prod.fst := by
  induction l with
  | nil => simp at h
  | cons par resto ih =>
    by_cases hk : par.1 = k
    · rw [pongaA, if_pos hk]
      simp [hk]
    · rw [pongaA, if_neg hk]
      simp only [List.map_cons, List.cons.injEq, true_and]
      apply ih
      rcases List.mem_map.mp h with ⟨q, hq, hq1⟩
      rcases List.mem_cons.mp hq with h' | h'
      · exact absurd (h' ▸ hq1) hk
      · exact List.mem_map.mpr ⟨q, h', hq1⟩

/-! ### Order independence of the fully bound enumeration (C2) -/

theorem enumerar_eq_producto (red : Red) (cond : List (String × String)) :
    ∀ l : List String, (∀ x ∈ l, (lookupA cond x).isSome) →
    enumerar_todas red l cond = productoExc red cond l := by
  intro l
  induction l with
  | nil => intro _; rfl
  | cons v resto ih =>
    intro hb
    have hv : (lookupA cond v).isSome := hb v (List.mem_cons_self v resto)
    obtain ⟨w, hw⟩ := Option.isSome_iff_exists.mp hv
    cases hn : lookupA red.nodos v with
    | none => simp only [enumerar_todas, productoExc, factorObs, hn, hw]
    | some nodo =>
      simp only [enumerar_todas, productoExc, factorObs, hn, hw]
      cases hp : nodo.probabilidad w
          (nodo.padres.filterMap (fun p => (lookupA cond p).map (fun w2 => (p, w2)))) with
      | error e => simp only [hp]
      | ok pr =>
        simp only [hp]
        rw [ih (fun x hx => hb x (List.mem_cons_of_mem v hx))]

theorem producto_ok_cons {red : Red} {cond : List (String × String)} {v : String}
    {l : List String} {q : ℚ} (h : productoExc red cond (v :: l) = .ok q) :
    ∃ pr q0, factorObs red cond v = .ok pr ∧ productoExc red cond l = .ok q0 ∧ q = pr * q0 := by
  simp only [productoExc] at h
  cases hf : factorObs red cond v with
  | error e => rw [hf] at h; exact absurd h (by simp)
  | ok pr =>
    rw [hf] at h
    cases hq : productoExc red cond l with
    | error e => rw [hq] at h; exact absurd h (by simp)
    | ok q0 =>
      rw [hq] at h
      simp at h
      exact ⟨pr, q0, rfl, rfl, h.symm⟩

theorem productoExc_perm {red : Red} {cond : List (String × String)} {l₁ l₂ : List String}
    (hperm : l₁.Perm l₂) :
    ∀ q : ℚ, productoExc red cond l₁ = .ok q → productoExc red cond l₂ = .ok q := by
  induction hperm with
  | nil => intro q h; exact h
  | cons x hp ih =>
    intro q h
    obtain ⟨pr, q0, hf, hq0, rfl⟩ := producto_ok_cons h
    simp only [productoExc, hf, ih q0 hq0]
  | swap x y l =>
    intro q h
    obtain ⟨py, qx, hfy, hx, rfl⟩ := producto_ok_cons h
    obtain ⟨px, q0, hfx, h0, rfl⟩ := producto_ok_cons hx
    simp only [productoExc, hfx, hfy, h0]
    rw [mul_left_comm]
  | trans h₁ h₂ ih₁ ih₂ =>
    intro q h
    exact ih₂ q (ih₁ q h)

/-! ### Nonnegativity and normalization of the returned distribution (C1) -/

theorem prob_nonneg {red : Red} (hnn : CptNoNeg red) {v : String} {nodo : Nodo}
    (hv : lookupA red.nodos v = some nodo) {val : String} {asig : List (String × String)}
    {pr : ℚ} (h : nodo.probabilidad val asig = .ok pr) : 0 ≤ pr := by
  simp only [Nodo.probabilidad] at h
  cases hc : clavePadres nodo.padres asig with
  | error e => simp [hc] at h
  | ok clave =>
    simp only [hc] at h
    cases hf : lookupA nodo.cpt clave with
    | none => simp [hf] at h
    | some fila =>
      simp only [hf] at h
      cases hp : lookupA fila val with
      | none => simp [hp] at h
      | some p =>
        simp only [hp, Except.ok.injEq] at h
        have hthis := hnn (v, nodo) (lookupA_mem hv) (clave, fila) (lookupA_mem hf) (val, p)
          (lookupA_mem hp)
        exact le_of_le_of_eq hthis h

theorem sumaOculta_nonneg {nodo : Nodo} {asig : List (String × String)} {v : String}
    {cond : List (String × String)} {sigue : List (String × String) → Except PyErr ℚ}
    (hs : ∀ y pr, nodo.probabilidad y asig = .ok pr → 0 ≤ pr)
    (hf : ∀ c q, sigue c = .ok q → 0 ≤ q) :
    ∀ ys t, sumaOculta nodo asig v cond sigue ys = .ok t → 0 ≤ t := by
  intro ys
  induction ys with
  | nil =>
    intro t h
    simp only [sumaOculta] at h
    simp at h
    subst h
    exact le_refl 0
  | cons y resto ih =>
    intro t h
    simp only [sumaOculta] at h
    cases hp : nodo.probabilidad y asig with
    | error e => rw [hp] at h; exact absurd h (by simp)
    | ok pr =>
      rw [hp] at h
      cases hsub : sigue (pongaA cond v y) with
      | error e => rw [hsub] at h; exact absurd h (by simp)
      | ok sub =>
        rw [hsub] at h
        cases hrest : sumaOculta nodo asig v cond sigue resto with
        | error e => rw [hrest] at h; exact absurd h (by simp)
        | ok t0 =>
          rw [hrest] at h
          simp at h
          subst h
          have h1 := hs y pr hp
          have h2 := hf _ sub hsub
          have h3 := ih t0 hrest
          positivity

theorem enumerar_nonneg {red : Red} (hnn : CptNoNeg red) :
    ∀ (l : List String) (cond : List (String × String)) (q : ℚ),
    enumerar_todas red l cond = .ok q → 0 ≤ q := by
  intro l
  induction l with
  | nil =>
    intro cond q h
    simp only [enumerar_todas, Except.ok.injEq] at h
    subst h
    exact zero_le_one
  | cons v resto ih =>
    intro cond q h
    simp only [enumerar_todas] at h
    cases hn : lookupA red.nodos v with
    | none => simp [hn] at h
    | some nodo =>
      simp only [hn] at h
      cases hc : lookupA cond v with
      | some valObs =>
        simp only [hc] at h
        cases hp : nodo.probabilidad valObs
            (nodo.padres.filterMap (fun p => (lookupA cond p).map (fun w => (p, w)))) with
        | error e => simp [hp] at h
        | ok pr =>
          simp only [hp] at h
          cases hr : enumerar_todas red resto cond with
          | error e => simp [hr] at h
          | ok q0 =>
            simp only [hr, Except.ok.injEq] at h
            have h1 := prob_nonneg hnn hn hp
            have h2 := ih cond q0 hr
            rw [← h]
            positivity
      | none =>
        simp only [hc] at h
        exact sumaOculta_nonneg (fun y pr hy => prob_nonneg hnn hn hy)
          (fun c q0 hq0 => ih c q0 hq0) nodo.valores q h

theorem cruda_nonneg {red : Red} (hnn : CptNoNeg red) (consulta : String)
    (obs : List (String × String)) (ord : List String) :
    ∀ (vals : List String) (acc dist : List (String × ℚ)),
    (∀ par ∈ acc, 0 ≤ par.2) →
    distribucionCruda red consulta obs ord acc vals = .ok dist →
    ∀ par ∈ dist, 0 ≤ par.2 := by
  intro vals
  induction vals with
  | nil =>
    intro acc dist hacc h
    simp only [distribucionCruda, Except.ok.injEq] at h
    subst h
    exact hacc
  | cons v vs ih =>
    intro acc dist hacc h
    simp only [distribucionCruda] at h
    cases he : enumerar_todas red ord (pongaA obs consulta v) with
    | error e => simp [he] at h
    | ok q =>
      simp only [he] at h
      refine ih (pongaA acc v q) dist ?_ h
      intro par hpar
      rcases mem_pongaA hpar with h' | h'
      · rw [h']
        exact enumerar_nonneg hnn ord (pongaA obs consulta v) q he
      · exact hacc par h'

theorem sum_map_div (l : List ℚ) (t : ℚ) : (l.map (fun q => q / t)).sum = l.sum / t := by
  induction l with
  | nil => simp
  | cons q resto ih => simp [ih, add_div]

theorem inferencia_eq {red : Red} {q : String} {e : List (String × String)} {nodoQ : Nodo}
    {ord : List String} {dist : List (String × ℚ)}
    (hq : lookupA red.nodos q = some nodoQ)
    (hord : orden_topologico red = .ok ord)
    (hdist : distribucionCruda red q e ord [] nodoQ.valores = .ok dist) :
    inferencia_por_enumeracion red q e =
      if (dist.map (·.2)).sum = 0 then .error (.valueError "La probabilidad total es 0")
      else .ok (dist.map (fun par => (par.1, par.2 / (dist.map (·.2)).sum))) := by
  simp only [inferencia_por_enumeracion, hq, hord, hdist]

theorem inferencia_ok_elim {red : Red} {q : String} {e : List (String × String)}
    {d : List (String × ℚ)} (h : inferencia_por_enumeracion red q e = .ok d) :
    ∃ nodoQ ord dist, lookupA red.nodos q = some nodoQ ∧
      orden_topologico red = .ok ord ∧
      distribucionCruda red q e ord [] nodoQ.valores = .ok dist ∧
      (dist.map (·.2)).sum ≠ 0 ∧
      d = dist.map (fun par => (par.1, par.2 / (dist.map (·.2)).sum)) := by
  simp only [inferencia_por_enumeracion] at h
  cases hq : lookupA red.nodos q with
  | none => simp [hq] at h
  | some nodoQ =>
    simp only [hq] at h
    cases hord : orden_topologico red with
    | error e2 => simp [hord] at h
    | ok ord =>
      simp only [hord] at h
      cases hdist : distribucionCruda red q e ord [] nodoQ.valores with
      | error e2 => simp [hdist] at h
      | ok dist =>
        simp only [hdist] at h
        by_cases htot : (dist.map (·.2)).sum = 0
        · simp [htot] at h
        · rw [if_neg htot] at h
          simp only [Except.ok.injEq] at h
          exact ⟨nodoQ, ord, dist, rfl, rfl, hdist, htot, h.symm⟩

/-! ### The executable topological-sortedness check -/

theorem padresAntesB_sound (red : Red) :
    ∀ (l vistos : List String), padresAntesB red vistos l = true →
    ∀ a x b, l = a ++ x :: b → ∀ p ∈ padresDe red x, p ∈ vistos ++ a := by
  intro l
  induction l with
  | nil =>
    intro vistos _ a x b hsplit
    exact absurd hsplit (by simp)
  | cons c resto ih =>
    intro vistos hB a x b hsplit p hp
    rw [padresAntesB, Bool.and_eq_true] at hB
    obtain ⟨hall, hrec⟩ := hB
    cases a with
    | nil =>
      simp only [List.nil_append, List.cons.injEq] at hsplit
      obtain ⟨hx, _⟩ := hsplit
      subst hx
      have := List.all_eq_true.mp hall p hp
      simp only [decide_eq_true_eq] at this
      simpa using this
    | cons a0 a1 =>
      simp only [List.cons_append, List.cons.injEq] at hsplit
      obtain ⟨ha0, hresto⟩ := hsplit
      subst ha0
      have := ih (vistos ++ [c]) hrec a1 x b hresto p hp
      simpa [List.append_assoc] using this

theorem padresAntes_of_B (red : Red) (l : List String)
    (h : padresAntesB red [] l = true) : PadresAntes red l := by
  intro a x b hsplit p hp
  have := padresAntesB_sound red l [] h a x b hsplit p hp
  simpa using this

/-! ### Characterization of validation (C7) -/

theorem checaFilas_ok_iff (nombre : String) :
    ∀ filas : List (List String × List (String × ℚ)),
    checaFilas nombre filas = .ok () ↔
      ∀ fila ∈ filas, |(fila.2.map (·.2)).sum - 1| ≤ tolerancia := by
  intro filas
  induction filas with
  | nil => simp [checaFilas]
  | cons fila resto ih =>
    rw [checaFilas]
    by_cases hs : |(fila.2.map (·.2)).sum - 1| > tolerancia
    · rw [if_pos hs]
      simp only [List.mem_cons]
      constructor
      · intro h; exact absurd h (by simp)
      · intro h
        exact absurd (h fila (Or.inl rfl)) (not_le.mpr hs)
    · rw [if_neg hs, ih]
      simp only [List.mem_cons]
      constructor
      · intro h fila2 hm
        rcases hm with hm | hm
        · subst hm; exact not_lt.mp hs
        · exact h fila2 hm
      · intro h fila2 hm
        exact h fila2 (Or.inr hm)

theorem checaCombos_ok_iff (nodo : Nodo) (nombre : String) :
    ∀ combos : List (List String),
    checaCombos nodo nombre combos = .ok () ↔
      ∀ c ∈ combos, (lookupA nodo.cpt c).isSome := by
  intro combos
  induction combos with
  | nil => simp [checaCombos]
  | cons c resto ih =>
    rw [checaCombos]
    by_cases hc : (lookupA nodo.cpt c).isSome
    · rw [if_pos hc, ih]
      simp only [List.mem_cons]
      constructor
      · intro h c2 hm
        rcases hm with hm | hm
        · subst hm; exact hc
        · exact h c2 hm
      · intro h c2 hm
        exact h c2 (Or.inr hm)
    · rw [if_neg hc]
      simp only [List.mem_cons]
      constructor
      · intro h; exact absurd h (by simp)
      · intro h
        exact absurd (h c (Or.inl rfl)) hc

theorem combosDesde_spec (red : Red) :
    ∀ (padres : List String) (acc : List (List String)),
    (∀ p ∈ padres, p ∈ claves red) →
    ∃ combos, combosDesde red acc padres = .ok combos ∧
      ∀ combo, combo ∈ combos ↔ ∃ pre ∈ acc, ∃ suf, combo = pre ++ suf ∧
        List.Forall₂ (fun p v => v ∈ valoresDe red p) padres suf := by
  intro padres
  induction padres with
  | nil =>
    intro acc _
    refine ⟨acc, rfl, fun combo => ?_⟩
    constructor
    · intro h
      exact ⟨combo, h, [], by simp, List.Forall₂.nil⟩
    · rintro ⟨pre, hpre, suf, hcombo, hF⟩
      cases hF
      simpa [hcombo] using hpre
  | cons p resto ih =>
    intro acc hcl
    have hpmem : p ∈ claves red := hcl p (List.mem_cons_self p resto)
    have hps : (lookupA red.nodos p).isSome := (lookupA_isSome_iff red.nodos p).mpr hpmem
    obtain ⟨padre, hpadre⟩ := Option.isSome_iff_exists.mp hps
    obtain ⟨combos, hcombos, hchar⟩ :=
      ih (acc.flatMap (fun comb => padre.valores.map (fun v => comb ++ [v])))
        (fun x hx => hcl x (List.mem_cons_of_mem p hx))
    refine ⟨combos, ?_, fun combo => ?_⟩
    · rw [combosDesde, hpadre]
      exact hcombos
    · rw [hchar combo]
      constructor
      · rintro ⟨pre2, hpre2, suf2, hcombo, hF⟩
        rw [List.mem_flatMap] at hpre2
        obtain ⟨pre, hpre, hpre2m⟩ := hpre2
        rw [List.mem_map] at hpre2m
        obtain ⟨v, hv, hpre2eq⟩ := hpre2m
        refine ⟨pre, hpre, v :: suf2, ?_, ?_⟩
        · rw [hcombo, ← hpre2eq]
          simp
        · refine List.Forall₂.cons ?_ hF
          rw [valoresDe, hpadre]
          exact hv
      · rintro ⟨pre, hpre, suf, hcombo, hF⟩
        cases hF with
        | cons hv hF2 =>
          rename_i v suf2
          refine ⟨pre ++ [v], ?_, suf2, by simp [hcombo], hF2⟩
          rw [List.mem_flatMap]
          refine ⟨pre, hpre, ?_⟩
          rw [List.mem_map]
          refine ⟨v, ?_, rfl⟩
          rw [valoresDe, hpadre] at hv
          exact hv

theorem validar_nodo_ok_iff (red : Red) (nombre : String) (nodo : Nodo)
    (hcl : ∀ p ∈ nodo.padres, p ∈ claves red) :
    validar_nodo red nombre nodo = .ok () ↔ NodoValidoSpec red nodo := by
  rw [NodoValidoSpec]
  constructor
  · intro h
    rw [validar_nodo] at h
    by_cases hv : nodo.valores = []
    · rw [if_pos hv] at h
      exact absurd h (by simp)
    · rw [if_neg hv] at h
      refine ⟨hv, ?_, ?_, ?_⟩
      · intro hpads
        rw [hpads] at h
        by_cases hroot : (lookupA nodo.cpt []).isSome
        · rw [← lookupA_isSome_iff]
          exact hroot
        · rw [if_neg hroot] at h
          exact absurd h (by simp)
      · intro hpads combo hF
        cases hp : nodo.padres with
        | nil => exact absurd hp hpads
        | cons p0 resto0 =>
          rw [hp] at h hcl
          rw [hp] at hF
          obtain ⟨combos, hcombos, hchar⟩ := combosDesde_spec red (p0 :: resto0) [[]] hcl
          rw [hcombos] at h
          replace h : (match checaCombos nodo nombre combos with
            | Except.error e => Except.error e
            | Except.ok _ => checaFilas nombre nodo.cpt) = Except.ok () := h
          cases hcheck : checaCombos nodo nombre combos with
          | error e => rw [hcheck] at h; exact absurd h (by simp)
          | ok u =>
            obtain ⟨⟩ := u
            rw [checaCombos_ok_iff] at hcheck
            rw [← lookupA_isSome_iff]
            apply hcheck
            rw [hchar combo]
            exact ⟨[], by simp, combo, by simp, hF⟩
      · cases hp : nodo.padres with
        | nil =>
          rw [hp] at h
          by_cases hroot : (lookupA nodo.cpt []).isSome
          · rw [if_pos hroot] at h
            replace h : checaFilas nombre nodo.cpt = .ok () := h
            rw [checaFilas_ok_iff] at h
            exact h
          · rw [if_neg hroot] at h
            exact absurd h (by simp)
        | cons p0 resto0 =>
          rw [hp] at h hcl
          obtain ⟨combos, hcombos, hchar⟩ := combosDesde_spec red (p0 :: resto0) [[]] hcl
          rw [hcombos] at h
          replace h : (match checaCombos nodo nombre combos with
            | Except.error e => Except.error e
            | Except.ok _ => checaFilas nombre nodo.cpt) = Except.ok () := h
          cases hcheck : checaCombos nodo nombre combos with
          | error e => rw [hcheck] at h; exact absurd h (by simp)
          | ok u =>
            obtain ⟨⟩ := u
            rw [hcheck] at h
            replace h : checaFilas nombre nodo.cpt = .ok () := h
            rw [checaFilas_ok_iff] at h
            exact h
  · rintro ⟨hv, hroot, hinner, hfilas⟩
    rw [validar_nodo, if_neg hv]
    cases hp : nodo.padres with
    | nil =>
      have hr := hroot hp
      rw [← lookupA_isSome_iff] at hr
      rw [if_pos hr]
      show checaFilas nombre nodo.cpt = .ok ()
      rw [checaFilas_ok_iff]
      exact hfilas
    | cons p0 resto0 =>
      rw [hp] at hcl
      obtain ⟨combos, hcombos, hchar⟩ := combosDesde_spec red (p0 :: resto0) [[]] hcl
      rw [hcombos]
      have hcheck : checaCombos nodo nombre combos = .ok () := by
        rw [checaCombos_ok_iff]
        intro c hc
        rw [hchar c] at hc
        obtain ⟨pre, hpre, suf, hceq, hF⟩ := hc
        simp only [List.mem_singleton] at hpre
        subst hpre
        simp only [List.nil_append] at hceq
        subst hceq
        rw [lookupA_isSome_iff]
        exact hinner (by rw [hp]; simp) c (by rw [hp]; exact hF)
      show (match checaCombos nodo nombre combos with
        | Except.error e => Except.error e
        | Except.ok _ => checaFilas nombre nodo.cpt) = Except.ok ()
      rw [hcheck]
      show checaFilas nombre nodo.cpt = .ok ()
      rw [checaFilas_ok_iff]
      exact hfilas

theorem validarLista_ok_iff (red : Red) :
    ∀ lista : List (String × Nodo),
    (∀ xn ∈ lista, ∀ p ∈ xn.2.padres, p ∈ claves red) →
    (validarLista red lista = .ok () ↔ ∀ xn ∈ lista, NodoValidoSpec red xn.2) := by
  intro lista
  induction lista with
  | nil => intro _; simp [validarLista]
  | cons xn resto ih =>
    intro hcl
    obtain ⟨nombre, nodo⟩ := xn
    rw [validarLista]
    cases hn : validar_nodo red nombre nodo with
    | error e =>
      constructor
      · intro h; exact absurd h (by simp)
      · intro h
        have := (validar_nodo_ok_iff red nombre nodo
          (hcl (nombre, nodo) (List.mem_cons_self _ _))).mpr
          (h (nombre, nodo) (List.mem_cons_self _ _))
        rw [hn] at this
        exact absurd this (by simp)
    | ok u =>
      obtain ⟨⟩ := u
      rw [ih (fun xn2 hm2 => hcl xn2 (List.mem_cons_of_mem _ hm2))]
      constructor
      · intro h xn2 hm
        rcases List.mem_cons.mp hm with hm | hm
        · subst hm
          exact (validar_nodo_ok_iff red nombre nodo
            (hcl (nombre, nodo) (List.mem_cons_self _ _))).mp hn
        · exact h xn2 hm
      · intro h xn2 hm
        exact h xn2 (List.mem_cons_of_mem _ hm)

theorem validar_red_ok_iff (red : Red) (hcl : ClausuradaPadres red) :
    validar_red red = .ok () ↔ ∀ xn ∈ red.nodos, NodoValidoSpec red xn.2 := by
  rw [validar_red]
  exact validarLista_ok_iff red red.nodos hcl

/-! ### Kahn step characterization (C4) -/

theorem lookupA_map_snd {α β : Type} (f : α → β) :
    ∀ (l : List (String × α)) (k : String),
    lookupA (l.map (fun xn => (xn.1, f xn.2))) k = (lookupA l k).map f := by
  intro l k
  induction l with
  | nil => simp [lookupA_nil]
  | cons xn resto ih =>
    obtain ⟨k0, v0⟩ := xn
    simp only [List.map_cons, lookupA_cons]
    by_cases h : k0 = k
    · rw [if_pos h, if_pos h]
      rfl
    · rw [if_neg h, if_neg h, ih]

theorem lookupA_of_mem_nodup {κ α : Type} [DecidableEq κ] {l : List (κ × α)} {k : κ} {v : α}
    (hm : (k, v) ∈ l) (hnd : (l.map Prod.fst).Nodup) : lookupA l k = some v := by
  induction l with
  | nil => simp at hm
  | cons par resto ih =>
    obtain ⟨k0, v0⟩ := par
    simp only [List.map_cons, List.nodup_cons] at hnd
    rw [lookupA_cons]
    rcases List.mem_cons.mp hm with h | h
    · obtain ⟨hk, hv⟩ := Prod.mk.injEq .. ▸ h
      subst hk
      rw [if_pos rfl, hv]
    · by_cases hk : k0 = k
      · subst hk
        exact absurd (List.mem_map.mpr ⟨(k0, v), h, rfl⟩) hnd.1
      · rw [if_neg hk]
        exact ih h hnd.2

theorem ajusta_keys (hs : List String) :
    ∀ g : List (String × Int), (ajustaGrado g hs).map Prod.fst = g.map Prod.fst := by
  intro g
  induction g with
  | nil => rfl
  | cons xd resto ih =>
    simp only [ajustaGrado, List.map_cons] at ih ⊢
    by_cases h : xd.1 ∈ hs
    · rw [if_pos h]
      simp [ih]
    · rw [if_neg h]
      simp [ih]

theorem lookupA_ajusta (hs : List String) :
    ∀ (g : List (String × Int)) (x : String),
    lookupA (ajustaGrado g hs) x =
      (lookupA g x).map (fun d => if x ∈ hs then d - 1 else d) := by
  intro g x
  induction g with
  | nil => simp [ajustaGrado, lookupA_nil]
  | cons xd resto ih =>
    obtain ⟨k0, d0⟩ := xd
    simp only [ajustaGrado, List.map_cons] at ih ⊢
    by_cases hm : k0 ∈ hs
    · simp only [if_pos hm]
      rw [lookupA_cons, lookupA_cons]
      by_cases hk : k0 = x
      · subst hk
        rw [if_pos rfl, if_pos rfl]
        simp [hm]
      · rw [if_neg hk, if_neg hk, ih]
    · simp only [if_neg hm]
      rw [lookupA_cons, lookupA_cons]
      by_cases hk : k0 = x
      · subst hk
        rw [if_pos rfl, if_pos rfl]
        simp [hm]
      · rw [if_neg hk, if_neg hk, ih]

theorem ajusta_no_mem (h : String) (hs : List String) :
    ∀ g : List (String × Int), (∀ xd ∈ g, xd.1 ≠ h) →
    ajustaGrado g (h :: hs) = ajustaGrado g hs := by
  intro g
  induction g with
  | nil => intro _; rfl
  | cons xd resto ih =>
    intro hne
    have hx : xd.1 ≠ h := hne xd (List.mem_cons_self _ _)
    have htail := ih (fun y hy => hne y (List.mem_cons_of_mem _ hy))
    simp only [ajustaGrado, List.map_cons] at htail ⊢
    rw [htail]
    by_cases hin : xd.1 ∈ hs
    · rw [if_pos (List.mem_cons_of_mem h hin), if_pos hin]
    · rw [if_neg (fun hc => (List.mem_cons.mp hc).elim hx hin), if_neg hin]

theorem ajusta_ponga (h : String) (d : Int) (hs : List String) :
    ∀ g : List (String × Int), (g.map Prod.fst).Nodup → lookupA g h = some d → h ∉ hs →
    ajustaGrado (pongaA g h (d - 1)) hs = ajustaGrado g (h :: hs) := by
  intro g
  induction g with
  | nil => intro _ hl _; simp [lookupA_nil] at hl
  | cons xd resto ih =>
    intro hnd hl hnm
    obtain ⟨k0, v0⟩ := xd
    simp only [List.map_cons, List.nodup_cons] at hnd
    by_cases hk : k0 = h
    · subst hk
      rw [lookupA_cons, if_pos rfl] at hl
      simp only [Option.some.injEq] at hl
      subst hl
      rw [pongaA, if_pos rfl]
      have hresto : ∀ xd ∈ resto, xd.1 ≠ k0 := by
        intro xd hxd he
        exact hnd.1 (List.mem_map.mpr ⟨xd, hxd, he⟩)
      have htail := ajusta_no_mem k0 hs resto hresto
      simp only [ajustaGrado, List.map_cons] at htail ⊢
      rw [htail, if_neg hnm, if_pos (List.mem_cons_self k0 hs)]
    · rw [lookupA_cons, if_neg hk] at hl
      rw [pongaA, if_neg hk]
      have htail := ih hnd.2 hl hnm
      simp only [ajustaGrado, List.map_cons] at htail ⊢
      rw [htail]
      by_cases hin : k0 ∈ hs
      · rw [if_pos hin, if_pos (List.mem_cons_of_mem h hin)]
      · rw [if_neg hin, if_neg (fun hc => (List.mem_cons.mp hc).elim hk hin)]

theorem kahnPaso_spec :
    ∀ (hs : List String) (g : List (String × Int)) (cola : List String),
    hs.Nodup → (∀ h2 ∈ hs, h2 ∈ g.map Prod.fst) → (g.map Prod.fst).Nodup →
    kahnPaso g cola hs =
      .ok (ajustaGrado g hs,
        cola ++ hs.filter (fun h2 => decide (lookupA g h2 = some 1))) := by
  intro hs
  induction hs with
  | nil =>
    intro g cola _ _ _
    have hid : ajustaGrado g [] = g := by
      simp [ajustaGrado]
    rw [kahnPaso, hid]
    simp
  | cons h resto ih =>
    intro g cola hnd hkeys hgnd
    have hh : h ∈ g.map Prod.fst := hkeys h (List.mem_cons_self _ _)
    obtain ⟨d, hd⟩ := Option.isSome_iff_exists.mp ((lookupA_isSome_iff g h).mpr hh)
    simp only [List.nodup_cons] at hnd
    simp only [kahnPaso, hd]
    have hkeys2 : (pongaA g h (d - 1)).map Prod.fst = g.map Prod.fst :=
      pongaA_map_fst_of_mem (d - 1) hh
    rw [ih (pongaA g h (d - 1)) _ hnd.2
      (fun h2 hm => by rw [hkeys2]; exact hkeys h2 (List.mem_cons_of_mem _ hm))
      (by rw [hkeys2]; exact hgnd)]
    have hadj := ajusta_ponga h d resto g hgnd hd hnd.1
    rw [hadj]
    have hfiltros : resto.filter (fun h2 => decide (lookupA (pongaA g h (d - 1)) h2 = some 1)) =
        resto.filter (fun h2 => decide (lookupA g h2 = some 1)) := by
      apply List.filter_congr
      intro h2 hm
      have heq : lookupA (pongaA g h (d - 1)) h2 = lookupA g h2 :=
        lookupA_pongaA_ne g h h2 (d - 1) (fun he => hnd.1 (he ▸ hm))
      rw [heq]
    rw [hfiltros]
    by_cases hd1 : d - 1 = 0
    · have hd1e : d = 1 := by omega
      rw [if_pos hd1]
      have hfc : (h :: resto).filter (fun h2 => decide (lookupA g h2 = some 1)) =
          h :: resto.filter (fun h2 => decide (lookupA g h2 = some 1)) := by
        rw [List.filter_cons]
        simp [hd, hd1e]
      rw [hfc, List.append_assoc]
      rfl
    · have hd1e : d ≠ 1 := by omega
      rw [if_neg hd1]
      have hfc : (h :: resto).filter (fun h2 => decide (lookupA g h2 = some 1)) =
          resto.filter (fun h2 => decide (lookupA g h2 = some 1)) := by
        rw [List.filter_cons]
        simp [hd, hd1e]
      rw [hfc]

theorem positivos_ponga_one (h : String) :
    ∀ g : List (String × Int), lookupA g h = some 1 →
    positivos (pongaA g h 0) + 1 = positivos g := by
  intro g
  induction g with
  | nil => intro hl; simp [lookupA_nil] at hl
  | cons xd resto ih =>
    intro hl
    obtain ⟨k0, v0⟩ := xd
    by_cases hk : k0 = h
    · subst hk
      rw [lookupA_cons, if_pos rfl] at hl
      simp only [Option.some.injEq] at hl
      subst hl
      rw [pongaA, if_pos rfl]
      simp [positivos, List.filter_cons]
    · rw [lookupA_cons, if_neg hk] at hl
      rw [pongaA, if_neg hk]
      simp only [positivos, List.filter_cons] at ih ⊢
      by_cases hv : (0 : Int) < v0
      · simp only [hv, decide_True, if_true, List.length_cons]
        have := ih hl
        omega
      · simp only [hv, decide_False, if_false]
        exact ih hl

theorem positivos_ponga_le (h : String) (d : Int) (hne : d ≠ 1) :
    ∀ g : List (String × Int), lookupA g h = some d →
    positivos (pongaA g h (d - 1)) ≤ positivos g := by
  intro g
  induction g with
  | nil => intro hl; simp [lookupA_nil] at hl
  | cons xd resto ih =>
    intro hl
    obtain ⟨k0, v0⟩ := xd
    by_cases hk : k0 = h
    · subst hk
      rw [lookupA_cons, if_pos rfl] at hl
      simp only [Option.some.injEq] at hl
      subst hl
      rw [pongaA, if_pos rfl]
      simp only [positivos, List.filter_cons]
      by_cases hv : (0 : Int) < v0 - 1
      · have hv2 : (0 : Int) < v0 := by omega
        simp [hv, hv2]
      · by_cases hv2 : (0 : Int) < v0
        · simp [hv, hv2]
        · simp [hv, hv2]
    · rw [lookupA_cons, if_neg hk] at hl
      rw [pongaA, if_neg hk]
      simp only [positivos, List.filter_cons]
      by_cases hv : (0 : Int) < v0
      · simp only [hv, decide_True, if_true, List.length_cons]
        have := ih hl
        simp only [positivos] at this
        omega
      · simp only [hv, decide_False, if_false]
        exact ih hl

theorem kahnPaso_medida :
    ∀ (hs : List String) (g : List (String × Int)) (cola : List String)
      (g2 : List (String × Int)) (cola2 : List String),
    kahnPaso g cola hs = .ok (g2, cola2) →
    cola2.length + positivos g2 ≤ cola.length + positivos g := by
  intro hs
  induction hs with
  | nil =>
    intro g cola g2 cola2 h
    rw [kahnPaso] at h
    simp only [Except.ok.injEq, Prod.mk.injEq] at h
    obtain ⟨h1, h2⟩ := h
    subst h1; subst h2
    exact le_refl _
  | cons h resto ih =>
    intro g cola g2 cola2 hstep
    simp only [kahnPaso] at hstep
    cases hd : lookupA g h with
    | none => rw [hd] at hstep; exact absurd hstep (by simp)
    | some d =>
      simp only [hd] at hstep
      have hrec := ih (pongaA g h (d - 1))
        (if d - 1 = 0 then cola ++ [h] else cola) g2 cola2 hstep
      by_cases hd1 : d - 1 = 0
      · have hd1e : d = 1 := by omega
        subst hd1e
        rw [if_pos hd1] at hrec
        have hpos := positivos_ponga_one h g hd
        simp only [List.length_append, List.length_singleton] at hrec
        have hz : (1 : Int) - 1 = 0 := by omega
        rw [hz] at hrec
        omega
      · rw [if_neg hd1] at hrec
        have hd1e : d ≠ 1 := by omega
        have hpos := positivos_ponga_le h d hd1e g hd
        omega

theorem consistente_hijos {red : Red} (hcon : Consistente red) (c x : String)
    (hx : x ∈ hijosDe red c) : x ∈ claves red ∧ c ∈ padresDe red x := by
  rw [hijosDe] at hx
  cases hl : lookupA red.hijos c with
  | none => rw [hl] at hx; simp at hx
  | some l =>
    rw [hl] at hx
    exact (hcon.2.2.1 (c, l) (lookupA_mem hl)).2 x hx

theorem consistente_hijos_nodup {red : Red} (hcon : Consistente red) (c : String) :
    (hijosDe red c).Nodup := by
  rw [hijosDe]
  cases hl : lookupA red.hijos c with
  | none => exact List.nodup_nil
  | some l => exact (hcon.2.2.1 (c, l) (lookupA_mem hl)).1

theorem consistente_padres {red : Red} (hcon : Consistente red) (x p : String)
    (hp : p ∈ padresDe red x) : p ∈ claves red ∧ x ∈ hijosDe red p := by
  rw [padresDe] at hp
  cases hl : lookupA red.nodos x with
  | none => rw [hl] at hp; simp at hp
  | some nodo =>
    rw [hl] at hp
    exact (hcon.2.2.2 (x, nodo) (lookupA_mem hl)).2 p hp

theorem consistente_padres_nodup {red : Red} (hcon : Consistente red) (x : String) :
    (padresDe red x).Nodup := by
  rw [padresDe]
  cases hl : lookupA red.nodos x with
  | none => exact List.nodup_nil
  | some nodo => exact (hcon.2.2.2 (x, nodo) (lookupA_mem hl)).1

theorem cuenta_fuera (c : String) (orden : List String) (hc : c ∉ orden) :
    ∀ l : List String, l.Nodup →
    ((l.filter (fun p => decide (p ∉ orden ++ [c]))).length : Int) =
      ((l.filter (fun p => decide (p ∉ orden))).length : Int) -
        (if c ∈ l then 1 else 0) := by
  intro l
  induction l with
  | nil => intro _; simp
  | cons a resto ih =>
    intro hnd
    simp only [List.nodup_cons] at hnd
    have hrec := ih hnd.2
    by_cases hac : a = c
    · subst hac
      have h1 : a ∉ orden ++ [a] → False := by
        intro h; exact h (by simp)
      have hmem : a ∈ a :: resto := List.mem_cons_self _ _
      rw [List.filter_cons, List.filter_cons]
      simp only [decide_eq_true_eq]
      rw [if_neg h1, if_pos (by simpa using hc), if_pos hmem]
      have hfil : resto.filter (fun p => decide (p ∉ orden ++ [a])) =
          resto.filter (fun p => decide (p ∉ orden)) := by
        apply List.filter_congr
        intro p hp
        have hpa : p ≠ a := fun he => hnd.1 (he ▸ hp)
        simp [List.mem_append, hpa]
      rw [hfil]
      simp
    · rw [List.filter_cons, List.filter_cons]
      have hif : (if c ∈ a :: resto then (1 : Int) else 0) = (if c ∈ resto then 1 else 0) := by
        by_cases hcr : c ∈ resto
        · rw [if_pos (List.mem_cons_of_mem _ hcr), if_pos hcr]
        · rw [if_neg (fun h => hcr ((List.mem_cons.mp h).resolve_left
            (fun he => hac he.symm))), if_neg hcr]
      rw [hif]
      by_cases hin : a ∈ orden
      · have h1 : ¬ a ∉ orden ++ [c] := fun h => h (by simp [hin])
        have h2 : ¬ a ∉ orden := fun h => h hin
        simp only [decide_eq_true_eq]
        rw [if_neg h1, if_neg h2]
        exact hrec
      · have h1 : a ∉ orden ++ [c] := by
          simp [List.mem_append, hin, hac]
        simp only [decide_eq_true_eq]
        rw [if_pos h1, if_pos hin]
        simp only [List.length_cons]
        push_cast
        omega

theorem singleton_of_length_one {l : List String} {c : String}
    (hl : l.length = 1) (hc : c ∈ l) : l = [c] := by
  cases l with
  | nil => simp at hc
  | cons a resto =>
    cases resto with
    | nil =>
      simp only [List.mem_singleton] at hc
      rw [hc]
    | cons b resto2 => simp at hl

theorem dos_distintos {l : List String} (c : String) (hnd : l.Nodup) (hl : 2 ≤ l.length) :
    ∃ u ∈ l, u ≠ c := by
  cases l with
  | nil => simp at hl
  | cons a resto =>
    cases resto with
    | nil => simp at hl
    | cons b resto2 =>
      simp only [List.nodup_cons, List.mem_cons] at hnd
      by_cases hac : a = c
      · refine ⟨b, by simp, ?_⟩
        intro hbc
        exact hnd.1 (Or.inl (hac.trans hbc.symm))
      · exact ⟨a, by simp, hac⟩

theorem padresAntes_snoc {red : Red} {l : List String} {y : String}
    (hpa : PadresAntes red l) (hy : ∀ p ∈ padresDe red y, p ∈ l) :
    PadresAntes red (l ++ [y]) := by
  intro a x b hsplit p hp
  rcases List.eq_nil_or_concat b with hb | ⟨b0, z, hb⟩
  · subst hb
    have := List.append_inj' hsplit (by simp)
    obtain ⟨ha, hxy⟩ := this
    simp only [List.cons.injEq] at hxy
    subst ha
    rw [← hxy.1] at hp
    exact hy p hp
  · subst hb
    rw [List.concat_eq_append] at hsplit
    have hsplit2 : l ++ [y] = (a ++ x :: b0) ++ [z] := by
      rw [hsplit]
      simp
    have := List.append_inj' hsplit2 (by simp)
    obtain ⟨ha, _⟩ := this
    exact hpa a x b0 ha p hp

theorem invkahn_paso {red : Red} (hcon : Consistente red) {grado : List (String × Int)}
    {cola orden : List String} {c : String} {resto : List String}
    (hcola : cola = c :: resto) (hinv : InvKahn red grado cola orden) :
    InvKahn red (ajustaGrado grado (hijosDe red c))
      (resto ++ (hijosDe red c).filter (fun h2 => decide (lookupA grado h2 = some 1)))
      (orden ++ [c]) := by
  subst hcola
  have hcmem : c ∈ c :: resto := List.mem_cons_self _ _
  have hcV : c ∈ claves red := hinv.cola_claves c hcmem
  have hcO : c ∉ orden := hinv.cola_orden c hcmem
  have hcP : ∀ p ∈ padresDe red c, p ∈ orden := hinv.cola_padres c hcmem
  have hcolaN := hinv.cola_nodup
  rw [List.nodup_cons] at hcolaN
  have hs_iff : ∀ x, x ∈ hijosDe red c ↔ c ∈ padresDe red x := by
    intro x
    constructor
    · intro h; exact (consistente_hijos hcon c x h).2
    · intro h; exact (consistente_padres hcon x c h).2
  have hnuevos : ∀ x, x ∈ (hijosDe red c).filter
      (fun h2 => decide (lookupA grado h2 = some 1)) ↔
      x ∈ hijosDe red c ∧ lookupA grado x = some 1 := by
    intro x
    rw [List.mem_filter, decide_eq_true_eq]
  refine ⟨?_, ?_, ?_, ?_, ?_, ?_, ?_, ?_, ?_, ?_⟩
  · rw [ajusta_keys, hinv.claves_eq]
  · intro x d2 hl2
    rw [lookupA_ajusta] at hl2
    cases hx : lookupA grado x with
    | none => rw [hx] at hl2; simp at hl2
    | some d =>
      rw [hx] at hl2
      simp only [Option.map_some', Option.some.injEq] at hl2
      have hd := hinv.vals x d hx
      have hcount := cuenta_fuera c orden hcO (padresDe red x)
        (consistente_padres_nodup hcon x)
      by_cases hxh : x ∈ hijosDe red c
      · have hcp : c ∈ padresDe red x := (hs_iff x).mp hxh
        rw [if_pos hcp] at hcount
        rw [if_pos hxh] at hl2
        omega
      · have hcp : c ∉ padresDe red x := fun h => hxh ((hs_iff x).mpr h)
        rw [if_neg hcp] at hcount
        rw [if_neg hxh] at hl2
        omega
  · refine List.Nodup.append hcolaN.2 (List.Nodup.filter _ (consistente_hijos_nodup hcon c)) ?_
    intro x hx hx2
    rw [hnuevos] at hx2
    have h1 := hinv.vals x 1 hx2.2
    have hpad : ∀ p ∈ padresDe red x, p ∈ orden :=
      hinv.cola_padres x (List.mem_cons_of_mem _ hx)
    have hfil : (padresDe red x).filter (fun p => decide (p ∉ orden)) = [] := by
      rw [List.filter_eq_nil_iff]
      intro p hp
      simp only [decide_eq_true_eq, not_not]
      exact hpad p hp
    rw [hfil] at h1
    simp only [List.length_nil, Nat.cast_zero] at h1
    exact one_ne_zero h1
  · exact List.Nodup.append hinv.orden_nodup (List.nodup_singleton c)
      (fun a ha hb => hcO ((List.mem_singleton.mp hb) ▸ ha))
  · intro x hx
    simp only [List.mem_append, List.mem_singleton, not_or]
    rcases List.mem_append.mp hx with hx | hx
    · exact ⟨hinv.cola_orden x (List.mem_cons_of_mem _ hx), fun he => hcolaN.1 (he ▸ hx)⟩
    · rw [hnuevos] at hx
      have hcp : c ∈ padresDe red x := (hs_iff x).mp hx.1
      constructor
      · intro hxO
        obtain ⟨s, t, hst⟩ := List.append_of_mem hxO
        have hcs : c ∈ s := hinv.orden_topo s x t hst c hcp
        refine hcO ?_
        rw [hst]
        exact List.mem_append_left _ hcs
      · intro he
        subst he
        exact hcO (hcP x hcp)
  · intro x hx
    rcases List.mem_append.mp hx with hx | hx
    · exact hinv.cola_claves x (List.mem_cons_of_mem _ hx)
    · rw [hnuevos] at hx
      exact (consistente_hijos hcon c x hx.1).1
  · intro x hx p hp
    simp only [List.mem_append, List.mem_singleton]
    rcases List.mem_append.mp hx with hx | hx
    · exact Or.inl (hinv.cola_padres x (List.mem_cons_of_mem _ hx) p hp)
    · rw [hnuevos] at hx
      have h1 := hinv.vals x 1 hx.2
      have hlen : ((padresDe red x).filter (fun p2 => decide (p2 ∉ orden))).length = 1 := by
        omega
      have hcp : c ∈ padresDe red x := (hs_iff x).mp hx.1
      have hcf : c ∈ (padresDe red x).filter (fun p2 => decide (p2 ∉ orden)) := by
        rw [List.mem_filter, decide_eq_true_eq]
        exact ⟨hcp, hcO⟩
      have hsing := singleton_of_length_one hlen hcf
      by_cases hpO : p ∈ orden
      · exact Or.inl hpO
      · have hpf : p ∈ (padresDe red x).filter (fun p2 => decide (p2 ∉ orden)) := by
          rw [List.mem_filter, decide_eq_true_eq]
          exact ⟨hp, hpO⟩
        rw [hsing] at hpf
        exact Or.inr (List.mem_singleton.mp hpf)
  · intro x hx
    rcases List.mem_append.mp hx with hx | hx
    · exact hinv.orden_claves x hx
    · exact (List.mem_singleton.mp hx) ▸ hcV
  · exact padresAntes_snoc hinv.orden_topo hcP
  · intro x hxV hxO2 hxC2
    simp only [List.mem_append, List.mem_singleton, not_or] at hxO2 hxC2
    have hxO : x ∉ orden := hxO2.1
    have hxc : x ≠ c := hxO2.2
    have hxcola : x ∉ c :: resto := by
      rw [List.mem_cons, not_or]
      exact ⟨hxc, hxC2.1⟩
    obtain ⟨p, hp, hpO⟩ := hinv.atascado x hxV hxO hxcola
    by_cases hpc : p = c
    · rw [hpc] at hp hpO
      have hxh : x ∈ hijosDe red c := (hs_iff x).mpr hp
      have hnun : lookupA grado x ≠ some 1 := by
        intro hl
        exact hxC2.2 ((hnuevos x).mpr ⟨hxh, hl⟩)
      have hxK : x ∈ grado.map Prod.fst := by
        rw [hinv.claves_eq]; exact hxV
      obtain ⟨d, hd⟩ := Option.isSome_iff_exists.mp ((lookupA_isSome_iff grado x).mpr hxK)
      have hdval := hinv.vals x d hd
      have hd1 : d ≠ 1 := fun he => hnun (he ▸ hd)
      have hpf : c ∈ (padresDe red x).filter (fun p2 => decide (p2 ∉ orden)) := by
        rw [List.mem_filter, decide_eq_true_eq]
        exact ⟨hp, hpO⟩
      have hlen2 : 2 ≤ ((padresDe red x).filter (fun p2 => decide (p2 ∉ orden))).length := by
        have hge1 : 1 ≤ ((padresDe red x).filter (fun p2 => decide (p2 ∉ orden))).length :=
          List.length_pos.mpr (fun he => by rw [he] at hpf; simp at hpf)
        omega
      obtain ⟨u, hu, huc⟩ := dos_distintos c
        (List.Nodup.filter _ (consistente_padres_nodup hcon x)) hlen2
      rw [List.mem_filter, decide_eq_true_eq] at hu
      refine ⟨u, hu.1, ?_⟩
      simp only [List.mem_append, List.mem_singleton, not_or]
      exact ⟨hu.2, huc⟩
    · refine ⟨p, hp, ?_⟩
      simp only [List.mem_append, List.mem_singleton, not_or]
      exact ⟨hpO, hpc⟩

/-! ### Topological orders exclude cycles -/

theorem antes_trans {l : List String} {y z x : String}
    (h1 : Antes l y z) (h2 : Antes l z x) : Antes l y x := by
  intro a b hsplit
  have hz : z ∈ a := h2 a b hsplit
  obtain ⟨a1, a2, ha⟩ := List.append_of_mem hz
  have hsplit2 : l = a1 ++ z :: (a2 ++ x :: b) := by
    rw [hsplit, ha]
    simp
  have hy : y ∈ a1 := h1 a1 (a2 ++ x :: b) hsplit2
  rw [ha]
  exact List.mem_append_left _ hy

theorem primer_split {l : List String} {x : String} (hx : x ∈ l) :
    ∃ a b, l = a ++ x :: b ∧ x ∉ a := by
  induction l with
  | nil => simp at hx
  | cons c resto ih =>
    by_cases hc : c = x
    · exact ⟨[], resto, by simp [hc], by simp⟩
    · rcases List.mem_cons.mp hx with h | h
      · exact absurd h.symm hc
      · obtain ⟨a, b, hab, hna⟩ := ih h
        refine ⟨c :: a, b, by simp [hab], ?_⟩
        rw [List.mem_cons, not_or]
        exact ⟨fun he => hc he.symm, hna⟩

theorem no_antes_self {l : List String} {x : String} (hx : x ∈ l) : ¬ Antes l x x := by
  intro h
  obtain ⟨a, b, hab, hna⟩ := primer_split hx
  exact hna (h a b hab)

theorem alcanza_mem_claves {red : Red} {y x : String} (h : AlcanzaMas red y x) :
    x ∈ claves red := by
  induction h with
  | base hedge =>
    rename_i p c
    rw [Edge, padresDe] at hedge
    cases hl : lookupA red.nodos c with
    | none => rw [hl] at hedge; simp at hedge
    | some nodo =>
      show c ∈ red.nodos.map Prod.fst
      rw [← lookupA_isSome_iff, hl]
      rfl
  | paso _ _ ih => exact ih

theorem antes_de_alcanza {red : Red} {l : List String}
    (hpa : PadresAntes red l) :
    ∀ y x, AlcanzaMas red y x → Antes l y x := by
  intro y x h
  induction h with
  | base hedge =>
    intro a b hsplit
    exact hpa a _ b hsplit _ hedge
  | paso hedge halc ih =>
    rename_i p q c
    have hq : Antes l p q := by
      intro a b hsplit
      exact hpa a _ b hsplit _ hedge
    exact antes_trans hq ih

theorem topo_no_ciclo {red : Red} {l : List String} (htopo : EsOrdenTopologico red l) :
    Aciclica red := by
  rintro ⟨x, hx⟩
  have hxl : x ∈ l := htopo.1.mem_iff.mpr (alcanza_mem_claves hx)
  exact no_antes_self hxl (antes_de_alcanza htopo.2 x x hx)

/-- A nonempty set of nodes in which every node has a parent inside the
set yields a directed cycle. -/
theorem ciclo_de_padres (red : Red) (R : List String) (hne : R ≠ [])
    (hpar : ∀ r ∈ R, ∃ p, p ∈ R ∧ Edge red p r) : TieneCiclo red := by
  classical
  obtain ⟨r0, hr0⟩ := List.exists_mem_of_ne_nil R hne
  let F : {x // x ∈ R} → {x // x ∈ R} := fun z =>
    ⟨(hpar z.1 z.2).choose, (hpar z.1 z.2).choose_spec.1⟩
  have hF : ∀ z : {x // x ∈ R}, Edge red (F z).1 z.1 := fun z =>
    (hpar z.1 z.2).choose_spec.2
  have halc : ∀ (m : Nat) (z : {x // x ∈ R}), AlcanzaMas red (F^[m + 1] z).1 z.1 := by
    intro m
    induction m with
    | zero =>
      intro z
      exact AlcanzaMas.base (hF z)
    | succ m ih =>
      intro z
      rw [Function.iterate_succ_apply']
      exact AlcanzaMas.paso (hF (F^[m + 1] z)) (ih z)
  set z0 : {x // x ∈ R} := ⟨r0, hr0⟩ with hz0
  have hcard : Fintype.card (Fin R.length) < Fintype.card (Fin (R.length + 1)) := by
    simp [Fintype.card_fin]
  obtain ⟨i, j, hij, hGij⟩ := Fintype.exists_ne_map_eq_of_card_lt
    (fun i : Fin (R.length + 1) =>
      (⟨R.indexOf (F^[i.1] z0).1, List.indexOf_lt_length.mpr (F^[i.1] z0).2⟩ : Fin R.length))
    hcard
  have hsub : F^[i.1] z0 = F^[j.1] z0 := by
    apply Subtype.ext
    have hidx : R.indexOf (F^[i.1] z0).1 = R.indexOf (F^[j.1] z0).1 :=
      congrArg Fin.val hGij
    exact (List.indexOf_inj (F^[i.1] z0).2 (F^[j.1] z0).2).mp hidx
  have hne2 : i.1 ≠ j.1 := fun he => hij (Fin.ext he)
  rcases Nat.lt_or_ge i.1 j.1 with hlt | hge
  · obtain ⟨m, hm⟩ : ∃ m, j.1 = m + 1 + i.1 := ⟨j.1 - i.1 - 1, by omega⟩
    have hiter : F^[j.1] z0 = F^[m + 1] (F^[i.1] z0) := by
      rw [hm, Function.iterate_add_apply]
    have hcyc := halc m (F^[i.1] z0)
    rw [← hiter, ← hsub] at hcyc
    exact ⟨(F^[i.1] z0).1, hcyc⟩
  · have hlt2 : j.1 < i.1 := by omega
    obtain ⟨m, hm⟩ : ∃ m, i.1 = m + 1 + j.1 := ⟨i.1 - j.1 - 1, by omega⟩
    have hiter : F^[i.1] z0 = F^[m + 1] (F^[j.1] z0) := by
      rw [hm, Function.iterate_add_apply]
    have hcyc := halc m (F^[j.1] z0)
    rw [← hiter, hsub] at hcyc
    exact ⟨(F^[j.1] z0).1, hcyc⟩


theorem padresDe_eq {red : Red} {x : String} {nodo : Nodo}
    (hn : lookupA red.nodos x = some nodo) : padresDe red x = nodo.padres := by
  rw [padresDe, hn]

theorem valoresDe_eq {red : Red} {x : String} {nodo : Nodo}
    (hn : lookupA red.nodos x = some nodo) : valoresDe red x = nodo.valores := by
  rw [valoresDe, hn]

/-! ### The Kahn loop meets its specification -/

theorem kahnLoop_spec {red : Red} (hcon : Consistente red) :
    ∀ (fuel : Nat) (grado : List (String × Int)) (cola orden : List String),
    InvKahn red grado cola orden →
    cola.length + positivos grado ≤ fuel →
    ∃ ordenFin, kahnLoop red fuel grado cola orden = .ok ordenFin ∧
      ordenFin.Nodup ∧ (∀ x ∈ ordenFin, x ∈ claves red) ∧ PadresAntes red ordenFin ∧
      (∀ x ∈ claves red, x ∉ ordenFin → ∃ p ∈ padresDe red x, p ∉ ordenFin) := by
  intro fuel
  induction fuel with
  | zero =>
    intro grado cola orden hinv hfuel
    have hcola : cola = [] := by
      cases cola with
      | nil => rfl
      | cons c resto => simp at hfuel
    subst hcola
    refine ⟨orden, rfl, hinv.orden_nodup, hinv.orden_claves, hinv.orden_topo, ?_⟩
    intro x hx hxO
    exact hinv.atascado x hx hxO (by simp)
  | succ fuel ih =>
    intro grado cola orden hinv hfuel
    cases hcola : cola with
    | nil =>
      refine ⟨orden, rfl, hinv.orden_nodup, hinv.orden_claves, hinv.orden_topo, ?_⟩
      intro x hx hxO
      exact hinv.atascado x hx hxO (by rw [hcola]; simp)
    | cons c resto =>
      subst hcola
      have hsK : ∀ h2 ∈ hijosDe red c, h2 ∈ grado.map Prod.fst := by
        intro h2 hm
        rw [hinv.claves_eq]
        exact (consistente_hijos hcon c h2 hm).1
      have hgnd : (grado.map Prod.fst).Nodup := by
        rw [hinv.claves_eq]
        exact hcon.1
      have hpaso := kahnPaso_spec (hijosDe red c) grado resto
        (consistente_hijos_nodup hcon c) hsK hgnd
      have hinv2 := invkahn_paso hcon rfl hinv
      have hmed := kahnPaso_medida (hijosDe red c) grado resto _ _ hpaso
      simp only [kahnLoop, hpaso]
      apply ih _ _ _ hinv2
      simp only [List.length_cons] at hfuel
      omega

theorem invkahn_inicial (red : Red) (hcon : Consistente red)
    (g0 : List (String × Int)) (c0 : List String)
    (hg : g0 = red.nodos.map (fun xn => (xn.1, (xn.2.padres.length : Int))))
    (hc : c0 = (g0.filter (fun xd => decide (xd.2 = 0))).map (·.1)) :
    InvKahn red g0 c0 [] := by
  have hkeys : g0.map Prod.fst = claves red := by
    rw [hg, claves, List.map_map]
    rfl
  have hlook : ∀ x, lookupA g0 x =
      (lookupA red.nodos x).map (fun nodo => (nodo.padres.length : Int)) := by
    intro x
    rw [hg]
    exact lookupA_map_snd (fun nodo => (nodo.padres.length : Int)) red.nodos x
  refine ⟨hkeys, ?_, ?_, List.nodup_nil, ?_, ?_, ?_, ?_, ?_, ?_⟩
  · intro x d hl
    rw [hlook x] at hl
    cases hn : lookupA red.nodos x with
    | none => rw [hn] at hl; simp at hl
    | some nodo =>
      rw [hn] at hl
      simp only [Option.map_some', Option.some.injEq] at hl
      have hfil : (padresDe red x).filter (fun p => decide (p ∉ ([] : List String))) =
          padresDe red x := by
        rw [List.filter_eq_self]
        intro p _
        simp
      rw [hfil, padresDe, hn, ← hl]
  · rw [hc]
    refine List.Nodup.sublist ?_ (hkeys ▸ hcon.1)
    exact List.Sublist.map _ (List.filter_sublist g0)
  · intro x _
    simp
  · intro x hx
    rw [hc] at hx
    obtain ⟨xd, hxd, hfst⟩ := List.mem_map.mp hx
    have hxd2 : xd ∈ g0 := List.mem_of_mem_filter hxd
    rw [← hkeys]
    exact hfst ▸ List.mem_map.mpr ⟨xd, hxd2, rfl⟩
  · intro x hx p hp
    rw [hc] at hx
    obtain ⟨xd, hxd, hfst⟩ := List.mem_map.mp hx
    rw [List.mem_filter, decide_eq_true_eq] at hxd
    have hl0 : lookupA g0 x = some xd.2 := by
      have : xd = (x, xd.2) := by
        rw [← hfst]
      rw [this] at hxd
      exact lookupA_of_mem_nodup hxd.1 (hkeys ▸ hcon.1)
    rw [hlook x] at hl0
    cases hn : lookupA red.nodos x with
    | none => rw [hn] at hl0; simp at hl0
    | some nodo =>
      rw [hn] at hl0
      simp only [Option.map_some', Option.some.injEq] at hl0
      rw [padresDe_eq hn] at hp
      have : nodo.padres.length = 0 := by
        have := hxd.2
        omega
      rw [List.length_eq_zero] at this
      rw [this] at hp
      simp at hp
  · intro x hx
    simp at hx
  · intro a x b hsplit
    exact absurd hsplit (by simp)
  · intro x hxV hxO hxC
    have hxK : x ∈ g0.map Prod.fst := hkeys ▸ hxV
    obtain ⟨d, hd⟩ := Option.isSome_iff_exists.mp ((lookupA_isSome_iff g0 x).mpr hxK)
    have hdne : d ≠ 0 := by
      intro h0
      subst h0
      have hmem : (x, (0 : Int)) ∈ g0 := lookupA_mem hd
      have : (x, (0 : Int)) ∈ g0.filter (fun xd => decide (xd.2 = 0)) := by
        rw [List.mem_filter, decide_eq_true_eq]
        exact ⟨hmem, rfl⟩
      exact hxC (hc ▸ List.mem_map.mpr ⟨(x, (0 : Int)), this, rfl⟩)
    rw [hlook x] at hd
    cases hn : lookupA red.nodos x with
    | none => rw [hn] at hd; simp at hd
    | some nodo =>
      rw [hn] at hd
      simp only [Option.map_some', Option.some.injEq] at hd
      have hlen : nodo.padres.length ≠ 0 := by
        intro h0
        rw [h0] at hd
        exact hdne (by omega)
      cases hpads : nodo.padres with
      | nil => rw [hpads] at hlen; simp at hlen
      | cons p ps =>
        refine ⟨p, ?_, by simp⟩
        rw [padresDe_eq hn, hpads]
        simp

theorem orden_topologico_nucleo (red : Red) (hcon : Consistente red) :
    ∃ ordenFin : List String,
      orden_topologico red =
        (if ordenFin.length = red.nodos.length then .ok ordenFin
         else .error (.valueError "La red tiene ciclos")) ∧
      ordenFin.Nodup ∧ (∀ x ∈ ordenFin, x ∈ claves red) ∧ PadresAntes red ordenFin ∧
      (∀ x ∈ claves red, x ∉ ordenFin → ∃ p ∈ padresDe red x, p ∉ ordenFin) := by
  set g0 : List (String × Int) :=
    red.nodos.map (fun xn => (xn.1, (xn.2.padres.length : Int))) with hg0
  set c0 : List String := (g0.filter (fun xd => decide (xd.2 = 0))).map (·.1) with hc0
  have hinv := invkahn_inicial red hcon g0 c0 hg0 hc0
  have hfuel : c0.length + positivos g0 ≤ g0.length + c0.length := by
    have hle : positivos g0 ≤ g0.length := List.length_filter_le _ _
    omega
  obtain ⟨ordenFin, hloop, hnd, hsub, htopo, hstuck⟩ :=
    kahnLoop_spec hcon (g0.length + c0.length) g0 c0 [] hinv hfuel
  refine ⟨ordenFin, ?_, hnd, hsub, htopo, hstuck⟩
  have hor : orden_topologico red =
      match kahnLoop red (g0.length + c0.length) g0 c0 [] with
      | .error e => .error e
      | .ok orden =>
        if orden.length = red.nodos.length then .ok orden
        else .error (.valueError "La red tiene ciclos") := rfl
  rw [hor, hloop]

theorem claves_length (red : Red) : (claves red).length = red.nodos.length := by
  rw [claves, List.length_map]

theorem orden_topologico_sound (red : Red) (hcon : Consistente red) (l : List String)
    (h : orden_topologico red = .ok l) : EsOrdenTopologico red l := by
  obtain ⟨ordenFin, heq, hnd, hsub, htopo, _⟩ := orden_topologico_nucleo red hcon
  rw [heq] at h
  by_cases hlen : ordenFin.length = red.nodos.length
  · rw [if_pos hlen] at h
    simp only [Except.ok.injEq] at h
    subst h
    refine ⟨?_, htopo⟩
    have hsp : List.Subperm ordenFin (claves red) := List.Nodup.subperm hnd hsub
    apply hsp.perm_of_length_le
    rw [claves_length, hlen]
  · rw [if_neg hlen] at h
    exact absurd h (by simp)

theorem orden_topologico_aciclica (red : Red) (hcon : Consistente red)
    (hacy : Aciclica red) :
    ∃ l, orden_topologico red = .ok l ∧ EsOrdenTopologico red l := by
  obtain ⟨ordenFin, heq, hnd, hsub, htopo, hstuck⟩ := orden_topologico_nucleo red hcon
  by_cases hlen : ordenFin.length = red.nodos.length
  · refine ⟨ordenFin, by rw [heq, if_pos hlen], ?_, htopo⟩
    have hsp : List.Subperm ordenFin (claves red) := List.Nodup.subperm hnd hsub
    apply hsp.perm_of_length_le
    rw [claves_length, hlen]
  · exfalso
    have hlt : ordenFin.length < (claves red).length := by
      have hsp : List.Subperm ordenFin (claves red) := List.Nodup.subperm hnd hsub
      have hle := hsp.length_le
      rw [claves_length] at hle ⊢
      omega
    have hexist : ∃ x ∈ claves red, x ∉ ordenFin := by
      by_contra hno
      push_neg at hno
      have hsp2 : List.Subperm (claves red) ordenFin := List.Nodup.subperm hcon.1 hno
      have := hsp2.length_le
      omega
    obtain ⟨x0, hx0V, hx0O⟩ := hexist
    apply hacy
    apply ciclo_de_padres red ((claves red).filter (fun x => decide (x ∉ ordenFin)))
    · intro hnil
      have : x0 ∈ (claves red).filter (fun x => decide (x ∉ ordenFin)) := by
        rw [List.mem_filter, decide_eq_true_eq]
        exact ⟨hx0V, hx0O⟩
      rw [hnil] at this
      simp at this
    · intro r hr
      rw [List.mem_filter, decide_eq_true_eq] at hr
      obtain ⟨p, hp, hpO⟩ := hstuck r hr.1 hr.2
      refine ⟨p, ?_, hp⟩
      rw [List.mem_filter, decide_eq_true_eq]
      exact ⟨(consistente_padres hcon r p hp).1, hpO⟩

theorem orden_topologico_ciclo (red : Red) (hcon : Consistente red)
    (hcyc : TieneCiclo red) :
    orden_topologico red = .error (.valueError "La red tiene ciclos") := by
  obtain ⟨ordenFin, heq, hnd, hsub, htopo, _⟩ := orden_topologico_nucleo red hcon
  by_cases hlen : ordenFin.length = red.nodos.length
  · exfalso
    have hok : orden_topologico red = .ok ordenFin := by rw [heq, if_pos hlen]
    exact topo_no_ciclo (orden_topologico_sound red hcon ordenFin hok) hcyc
  · rw [heq, if_neg hlen]

/-! ### Out-of-domain evidence forces a lookup failure (C8) -/

theorem clavePadres_error {padres : List String} {asig : List (String × String)} {e : PyErr}
    (h : clavePadres padres asig = .error e) : ∃ m, e = .keyError m := by
  induction padres with
  | nil => simp [clavePadres] at h
  | cons p resto ih =>
    rw [clavePadres] at h
    cases hl : lookupA asig p with
    | none =>
      rw [hl] at h
      simp only [Except.error.injEq] at h
      exact ⟨p, h.symm⟩
    | some v =>
      rw [hl] at h
      cases hr : clavePadres resto asig with
      | error e2 =>
        rw [hr] at h
        simp only [Except.error.injEq] at h
        subst h
        exact ih hr
      | ok vs => rw [hr] at h; simp at h

theorem probabilidad_error {nodo : Nodo} {val : String} {asig : List (String × String)}
    {e : PyErr} (h : nodo.probabilidad val asig = .error e) : ∃ m, e = .keyError m := by
  rw [Nodo.probabilidad] at h
  cases hc : clavePadres nodo.padres asig with
  | error e2 =>
    rw [hc] at h
    simp only [Except.error.injEq] at h
    subst h
    exact clavePadres_error hc
  | ok clave =>
    simp only [hc] at h
    cases hf : lookupA nodo.cpt clave with
    | none =>
      simp only [hf] at h
      simp only [Except.error.injEq] at h
      exact ⟨nodo.nombre, h.symm⟩
    | some fila =>
      simp only [hf] at h
      cases hp : lookupA fila val with
      | none =>
        simp only [hp] at h
        simp only [Except.error.injEq] at h
        exact ⟨nodo.nombre, h.symm⟩
      | some p => simp only [hp] at h; simp at h

theorem probabilidad_ok_elim {nodo : Nodo} {val : String} {asig : List (String × String)}
    {pr : ℚ} (h : nodo.probabilidad val asig = .ok pr) :
    ∃ clave fila, clavePadres nodo.padres asig = .ok clave ∧
      lookupA nodo.cpt clave = some fila ∧ lookupA fila val = some pr := by
  rw [Nodo.probabilidad] at h
  cases hc : clavePadres nodo.padres asig with
  | error e => rw [hc] at h; simp at h
  | ok clave =>
    simp only [hc] at h
    cases hf : lookupA nodo.cpt clave with
    | none => simp only [hf] at h; simp at h
    | some fila =>
      simp only [hf] at h
      cases hp : lookupA fila val with
      | none => simp only [hp] at h; simp at h
      | some p =>
        simp only [hp] at h
        simp only [Except.ok.injEq] at h
        exact ⟨clave, fila, rfl, hf, h ▸ hp⟩

theorem sumaOculta_error {nodo : Nodo} {asig : List (String × String)} {v : String}
    {cond : List (String × String)} {sigue : List (String × String) → Except PyErr ℚ}
    (hsig : ∀ c e, sigue c = .error e → ∃ m, e = .keyError m) :
    ∀ (ys : List String) (e : PyErr),
    sumaOculta nodo asig v cond sigue ys = .error e → ∃ m, e = .keyError m := by
  intro ys
  induction ys with
  | nil => intro e h; simp [sumaOculta] at h
  | cons y resto ih =>
    intro e h
    rw [sumaOculta] at h
    cases hp : nodo.probabilidad y asig with
    | error e2 =>
      rw [hp] at h
      simp only [Except.error.injEq] at h
      rw [← h]
      exact probabilidad_error hp
    | ok pr =>
      rw [hp] at h
      cases hs : sigue (pongaA cond v y) with
      | error e2 =>
        rw [hs] at h
        simp only [Except.error.injEq] at h
        rw [← h]
        exact hsig _ e2 hs
      | ok sub =>
        rw [hs] at h
        cases hr : sumaOculta nodo asig v cond sigue resto with
        | error e2 =>
          rw [hr] at h
          simp only [Except.error.injEq] at h
          rw [← h]
          exact ih e2 hr
        | ok t => rw [hr] at h; simp at h

theorem sumaOculta_ok_cons {nodo : Nodo} {asig : List (String × String)} {v y : String}
    {ys : List String} {cond : List (String × String)}
    {sigue : List (String × String) → Except PyErr ℚ} {t : ℚ}
    (h : sumaOculta nodo asig v cond sigue (y :: ys) = .ok t) :
    ∃ pr sub t0, nodo.probabilidad y asig = .ok pr ∧
      sigue (pongaA cond v y) = .ok sub ∧
      sumaOculta nodo asig v cond sigue ys = .ok t0 ∧ t = pr * sub + t0 := by
  rw [sumaOculta] at h
  cases hp : nodo.probabilidad y asig with
  | error e => rw [hp] at h; simp at h
  | ok pr =>
    rw [hp] at h
    cases hs : sigue (pongaA cond v y) with
    | error e => rw [hs] at h; simp at h
    | ok sub =>
      rw [hs] at h
      cases hr : sumaOculta nodo asig v cond sigue ys with
      | error e => rw [hr] at h; simp at h
      | ok t0 =>
        rw [hr] at h
        simp only [Except.ok.injEq] at h
        exact ⟨pr, sub, t0, rfl, rfl, rfl, h.symm⟩

theorem enumerar_error {red : Red} :
    ∀ (l : List String) (cond : List (String × String)) (e : PyErr),
    enumerar_todas red l cond = .error e → ∃ m, e = .keyError m := by
  intro l
  induction l with
  | nil => intro cond e h; simp [enumerar_todas] at h
  | cons v resto ih =>
    intro cond e h
    simp only [enumerar_todas] at h
    cases hn : lookupA red.nodos v with
    | none =>
      simp only [hn] at h
      simp only [Except.error.injEq] at h
      exact ⟨v, h.symm⟩
    | some nodo =>
      simp only [hn] at h
      cases hc : lookupA cond v with
      | some valObs =>
        simp only [hc] at h
        cases hp : nodo.probabilidad valObs
            (nodo.padres.filterMap (fun p => (lookupA cond p).map (fun w => (p, w)))) with
        | error e2 =>
          simp only [hp] at h
          simp only [Except.error.injEq] at h
          rw [← h]
          exact probabilidad_error hp
        | ok pr =>
          simp only [hp] at h
          cases hr : enumerar_todas red resto cond with
          | error e2 =>
            simp only [hr] at h
            simp only [Except.error.injEq] at h
            rw [← h]
            exact ih cond e2 hr
          | ok q => simp only [hr] at h; simp at h
      | none =>
        simp only [hc] at h
        exact sumaOculta_error (fun c2 e2 he2 => ih c2 e2 he2) nodo.valores e h

theorem enumerar_ok_dominio {red : Red} :
    ∀ (vars : List String) (cond : List (String × String)) (q : ℚ),
    (∀ x ∈ vars, ∃ nodo, lookupA red.nodos x = some nodo ∧ nodo.valores ≠ [] ∧
      ∀ fila ∈ nodo.cpt, ∀ par ∈ fila.2, par.1 ∈ nodo.valores) →
    enumerar_todas red vars cond = .ok q →
    ∀ E v, E ∈ vars → lookupA cond E = some v → v ∈ valoresDe red E := by
  intro vars
  induction vars with
  | nil => intro cond q _ _ E v hE; simp at hE
  | cons Y resto ih =>
    intro cond q H hok E v hE hEv
    obtain ⟨nodoY, hnY, hvalY, hkeysY⟩ := H Y (List.mem_cons_self _ _)
    simp only [enumerar_todas, hnY] at hok
    cases hcond : lookupA cond Y with
    | some valObs =>
      simp only [hcond] at hok
      cases hp : nodoY.probabilidad valObs
          (nodoY.padres.filterMap (fun p => (lookupA cond p).map (fun w => (p, w)))) with
      | error e => simp only [hp] at hok; simp at hok
      | ok pr =>
        simp only [hp] at hok
        cases hr : enumerar_todas red resto cond with
        | error e => simp only [hr] at hok; simp at hok
        | ok q0 =>
          by_cases hEY : E = Y
          · subst hEY
            rw [hEv] at hcond
            simp only [Option.some.injEq] at hcond
            obtain ⟨clave, fila, _, hfila, hval⟩ := probabilidad_ok_elim hp
            have hmem := hkeysY (clave, fila) (lookupA_mem hfila) (valObs, pr)
              (lookupA_mem hval)
            rw [valoresDe_eq hnY, hcond]
            exact hmem
          · exact ih cond q0
              (fun x hx => H x (List.mem_cons_of_mem _ hx)) hr E v
              ((List.mem_cons.mp hE).resolve_left hEY) hEv
    | none =>
      simp only [hcond] at hok
      have hEY : E ≠ Y := by
        intro he
        rw [he, hcond] at hEv
        exact absurd hEv (by simp)
      cases hvals : nodoY.valores with
      | nil => exact absurd hvals hvalY
      | cons y0 ys =>
        simp only [hvals] at hok
        obtain ⟨pr, sub, t0, _, hsub, _, _⟩ := sumaOculta_ok_cons hok
        refine ih (pongaA cond Y y0) sub
          (fun x hx => H x (List.mem_cons_of_mem _ hx)) hsub E v
          ((List.mem_cons.mp hE).resolve_left hEY) ?_
        rw [lookupA_pongaA_ne cond Y E y0 hEY]
        exact hEv

theorem lookupA_append_of_none {κ α : Type} [DecidableEq κ] {l : List (κ × α)} {k : κ}
    (h : lookupA l k = none) (l2 : List (κ × α)) : lookupA (l ++ l2) k = lookupA l2 k := by
  induction l with
  | nil => simp
  | cons par resto ih =>
    obtain ⟨k0, v0⟩ := par
    rw [lookupA_cons] at h
    by_cases hk : k0 = k
    · rw [if_pos hk] at h; simp at h
    · rw [if_neg hk] at h
      rw [List.cons_append, lookupA_cons, if_neg hk]
      exact ih h

theorem mem_keys_pongaA {κ α : Type} [DecidableEq κ] {l : List (κ × α)} {k k' : κ} (v : α)
    (h : k' ∈ l.map Prod.fst) : k' ∈ (pongaA l k v).map Prod.fst := by
  induction l with
  | nil => simp at h
  | cons par resto ih =>
    by_cases hk : par.1 = k
    · rw [pongaA, if_pos hk]
      simp only [List.map_cons, List.mem_cons] at h ⊢
      rcases h with h | h
      · exact Or.inl (h.trans hk)
      · exact Or.inr h
    · rw [pongaA, if_neg hk]
      simp only [List.map_cons, List.mem_cons] at h ⊢
      rcases h with h | h
      · exact Or.inl h
      · exact Or.inr (ih h)

theorem cruda_error_cons {red : Red} {q : String} {obs : List (String × String)}
    {ord : List String} {acc : List (String × ℚ)} {v0 : String} {vs : List String} {e : PyErr}
    (he : enumerar_todas red ord (pongaA obs q v0) = .error e) :
    distribucionCruda red q obs ord acc (v0 :: vs) = .error e := by
  rw [distribucionCruda, he]

theorem inferencia_error_de_enumerar {red : Red} {q : String} {obs : List (String × String)}
    {nodoQ : Nodo} {ord : List String} {e : PyErr}
    (hq : lookupA red.nodos q = some nodoQ)
    (hord : orden_topologico red = .ok ord)
    (hcruda : distribucionCruda red q obs ord [] nodoQ.valores = .error e) :
    inferencia_por_enumeracion red q obs = .error e := by
  simp only [inferencia_por_enumeracion, hq, hord, hcruda]

/-! ### Concrete evaluations shared by several claims -/

theorem redRU_valida : validar_red redRU = .ok () := by
  simp [validar_red, validarLista, validar_nodo, checaFilas, checaCombos, combosDesde,
    redRU, nodoRain, nodoUmbrella, lookupA, tolerancia]
  norm_num

theorem redRU_consulta : inferencia_por_enumeracion redRU "Rain" [("Umbrella", "yes")] =
    .ok [("yes", 9/17), ("no", 8/17)] := by
  simp [inferencia_por_enumeracion, distribucionCruda, enumerar_todas, sumaOculta,
    Nodo.probabilidad, clavePadres, pongaA, orden_topologico, kahnLoop, kahnPaso, hijosDe,
    redRU, nodoRain, nodoUmbrella, lookupA]
  norm_num

theorem redRU_consistente : Consistente redRU := by
  simp only [Consistente]
  decide

theorem redRU_sin_negativos : CptNoNeg redRU := by
  intro xn hxn fila hfila par hpar
  simp only [redRU, nodoRain, nodoUmbrella, List.mem_cons, List.not_mem_nil, or_false]
    at hxn
  rcases hxn with rfl | rfl <;>
    simp only [List.mem_cons, List.not_mem_nil, or_false] at hfila <;>
    rcases hfila with rfl | rfl <;>
    simp only [List.mem_cons, List.not_mem_nil, or_false] at hpar <;>
    rcases hpar with rfl | rfl <;> norm_num

theorem redCiclo_consistente : Consistente redCiclo := by
  simp only [Consistente]
  decide

/-! ### Claims -/

/-- Claim C1, counterexample: a one-node network whose CPT row sums to 1
but contains a negative entry passes validation, and the query returns a
distribution with a negative value; the claim as stated (every validated
network yields only nonnegative values) is false because validation
never checks nonnegativity. -/
theorem inferencia_puede_devolver_valor_negativo :
    validar_red redNeg = .ok () ∧
    inferencia_por_enumeracion redNeg "A" [] = .ok [("y", 3/2), ("n", -(1/2))] ∧
    ¬ (0 ≤ (-(1/2) : ℚ)) := by
  refine ⟨?_, ?_, by norm_num⟩
  · simp [validar_red, validarLista, validar_nodo, checaFilas, checaCombos, combosDesde,
      redNeg, lookupA, tolerancia]
    norm_num
  · simp [inferencia_por_enumeracion, distribucionCruda, enumerar_todas, sumaOculta,
      Nodo.probabilidad, clavePadres, pongaA, orden_topologico, kahnLoop, kahnPaso, hijosDe,
      redNeg, lookupA]
    norm_num

/-- Claim C1, amended: for every validated network whose stored CPT
probabilities are all nonnegative, whenever the enumeration query
returns a distribution its values sum to 1 within the 1e-6 tolerance and
every value is nonnegative. -/
theorem inferencia_normalizada_y_no_negativa (red : Red) (q : String)
    (evidencia : List (String × String)) (d : List (String × ℚ))
    (hval : validar_red red = .ok ()) (hnn : CptNoNeg red)
    (h : inferencia_por_enumeracion red q evidencia = .ok d) :
    |(d.map (·.2)).sum - 1| ≤ tolerancia ∧ ∀ par ∈ d, 0 ≤ par.2 := by
  obtain ⟨nodoQ, ord, dist, hq, hord, hdist, htot, hd⟩ := inferencia_ok_elim h
  have hpos : ∀ par ∈ dist, 0 ≤ par.2 :=
    cruda_nonneg hnn q evidencia ord nodoQ.valores [] dist (by simp) hdist
  have htotnn : 0 ≤ (dist.map (·.2)).sum := by
    apply List.sum_nonneg
    intro x hx
    obtain ⟨par, hpar, hpx⟩ := List.mem_map.mp hx
    exact hpx ▸ hpos par hpar
  have htotpos : 0 < (dist.map (·.2)).sum := lt_of_le_of_ne htotnn (Ne.symm htot)
  constructor
  · have hmapa : d.map (·.2) =
        (dist.map (·.2)).map (fun x => x / (dist.map (·.2)).sum) := by
      rw [hd, List.map_map, List.map_map]
      rfl
    rw [hmapa, sum_map_div, div_self htot]
    norm_num [tolerancia]
  · intro par hpar
    rw [hd] at hpar
    obtain ⟨par0, hpar0, hpx⟩ := List.mem_map.mp hpar
    rw [← hpx]
    exact div_nonneg (hpos par0 hpar0) htotnn

/-- Claim C1, witness: the Rain network instantiates the amended claim;
the returned distribution 9/17, 8/17 sums to 1 and is nonnegative. -/
theorem inferencia_normalizada_y_no_negativa_testigo :
    (validar_red redRU = .ok () ∧ CptNoNeg redRU) ∧
    abs ((([("yes", (9 : ℚ)/17), ("no", 8/17)].map (·.2)).sum - 1)) ≤ tolerancia ∧
      ∀ par ∈ [("yes", (9 : ℚ)/17), ("no", 8/17)], 0 ≤ par.2 :=
  ⟨⟨redRU_valida, redRU_sin_negativos⟩,
    inferencia_normalizada_y_no_negativa redRU "Rain" [("Umbrella", "yes")]
      [("yes", 9/17), ("no", 8/17)] redRU_valida redRU_sin_negativos redRU_consulta⟩

/-- Claim C2: when the assignment binds every variable of the ordering,
the recursive enumeration returns the same value under any valid
topological ordering of the network. -/
theorem enumeracion_independiente_del_orden (red : Red) (l₁ l₂ : List String)
    (a : List (String × String)) (q : ℚ)
    (h₁ : EsOrdenTopologico red l₁) (h₂ : EsOrdenTopologico red l₂)
    (hb : ∀ x ∈ l₁, (lookupA a x).isSome)
    (hok : enumerar_todas red l₁ a = .ok q) :
    enumerar_todas red l₂ a = .ok q := by
  have hperm : l₁.Perm l₂ := h₁.1.trans h₂.1.symm
  have hb₂ : ∀ x ∈ l₂, (lookupA a x).isSome := fun x hx => hb x (hperm.mem_iff.mpr hx)
  rw [enumerar_eq_producto red a l₁ hb] at hok
  rw [enumerar_eq_producto red a l₂ hb₂]
  exact productoExc_perm hperm q hok

/-- Claim C2, witness: the network with two independent roots has the
two topological orders A,B and B,A, and the fully bound enumeration
returns 1/8 under both. -/
theorem enumeracion_independiente_del_orden_testigo :
    enumerar_todas redPar ["A", "B"] [("A", "y"), ("B", "y")] = .ok (1/8) ∧
    enumerar_todas redPar ["B", "A"] [("A", "y"), ("B", "y")] = .ok (1/8) := by
  have h1 : enumerar_todas redPar ["A", "B"] [("A", "y"), ("B", "y")] = .ok (1/8) := by
    simp [enumerar_todas, sumaOculta, Nodo.probabilidad, clavePadres, pongaA, redPar, lookupA]
    norm_num
  have ht1 : EsOrdenTopologico redPar ["A", "B"] :=
    ⟨by decide, padresAntes_of_B redPar _ (by decide)⟩
  have ht2 : EsOrdenTopologico redPar ["B", "A"] :=
    ⟨by decide, padresAntes_of_B redPar _ (by decide)⟩
  exact ⟨h1, enumeracion_independiente_del_orden redPar ["A", "B"] ["B", "A"]
    [("A", "y"), ("B", "y")] (1/8) ht1 ht2 (by decide) h1⟩

/-- Claim C3, counterexample: the specified query on the Rain network
returns exactly 9/17 and 8/17; the figures 0.45 and 0.55 stated by the
claim are wrong even at tolerance 0.01. -/
theorem consulta_lluvia_no_da_045 :
    inferencia_por_enumeracion redRU "Rain" [("Umbrella", "yes")] =
      .ok [("yes", 9/17), ("no", 8/17)] ∧
    ¬ (abs ((9 : ℚ)/17 - 45/100) ≤ 1/100) ∧ ¬ (abs ((8 : ℚ)/17 - 55/100) ≤ 1/100) := by
  refine ⟨redRU_consulta, ?_, ?_⟩ <;> norm_num [abs_le]

/-- Claim C3, amended: the query ask(Rain, Umbrella=yes) on the Rain
network returns exactly 0.18/0.34 = 9/17 and 0.16/0.34 = 8/17, the
Bayes-rule values, matching 0.5294 and 0.4706 to four decimal places. -/
theorem consulta_lluvia_valores_exactos :
    inferencia_por_enumeracion redRU "Rain" [("Umbrella", "yes")] =
      .ok [("yes", 9/17), ("no", 8/17)] ∧
    (9 : ℚ)/17 = (18/100) / (34/100) ∧ (8 : ℚ)/17 = (16/100) / (34/100) ∧
    abs ((9 : ℚ)/17 - 5294/10000) ≤ 1/10000 ∧ abs ((8 : ℚ)/17 - 4706/10000) ≤ 1/10000 := by
  refine ⟨redRU_consulta, by norm_num, by norm_num, ?_, ?_⟩ <;> norm_num [abs_le]

/-- Claim C4: on a consistent network, Kahn's algorithm as implemented
by orden_topologico returns, for an acyclic parent/child relation, a
sequence listing every node exactly once with every parent before all of
its children; and for a relation containing a directed cycle it fails
with the ValueError raised when the emitted sequence is shorter than the
node count. -/
theorem orden_topologico_correcto (red : Red) (hcon : Consistente red) :
    (Aciclica red → ∃ l, orden_topologico red = .ok l ∧ l.Perm (claves red) ∧
      PadresAntes red l) ∧
    (TieneCiclo red → orden_topologico red = .error (.valueError "La red tiene ciclos")) := by
  constructor
  · intro hacy
    obtain ⟨l, hok, hperm, hpa⟩ := orden_topologico_aciclica red hcon hacy
    exact ⟨l, hok, hperm, hpa⟩
  · intro hcyc
    exact orden_topologico_ciclo red hcon hcyc

/-- Claim C4, witness: the acyclic Rain network yields a topological
order, and the cyclic two-node network yields the cycle ValueError. -/
theorem orden_topologico_correcto_testigo :
    (∃ l, orden_topologico redRU = .ok l ∧ l.Perm (claves redRU) ∧ PadresAntes redRU l) ∧
    orden_topologico redCiclo = .error (.valueError "La red tiene ciclos") := by
  have hacy : Aciclica redRU :=
    topo_no_ciclo (l := ["Rain", "Umbrella"])
      ⟨by decide, padresAntes_of_B redRU _ (by decide)⟩
  have hcyc : TieneCiclo redCiclo :=
    ⟨"A", AlcanzaMas.paso (show Edge redCiclo "A" "B" by simp only [Edge]; decide)
      (AlcanzaMas.base (show Edge redCiclo "B" "A" by simp only [Edge]; decide))⟩
  exact ⟨(orden_topologico_correcto redRU redRU_consistente).1 hacy,
    (orden_topologico_correcto redCiclo redCiclo_consistente).2 hcyc⟩

/-- Claim C5: whenever the per-value raw scores of a query are computed
and sum to exactly 0, the query fails with the ValueError of the
normalization step; it never returns a uniform or all-zero
distribution. -/
theorem inferencia_probabilidad_total_cero (red : Red) (q : String)
    (obs : List (String × String)) (nodoQ : Nodo) (ord : List String)
    (dist : List (String × ℚ))
    (hq : lookupA red.nodos q = some nodoQ)
    (hord : orden_topologico red = .ok ord)
    (hdist : distribucionCruda red q obs ord [] nodoQ.valores = .ok dist)
    (hzero : (dist.map (·.2)).sum = 0) :
    inferencia_por_enumeracion red q obs =
      .error (.valueError "La probabilidad total es 0") := by
  rw [inferencia_eq hq hord hdist, if_pos hzero]

/-- Claim C5, witness: querying B with the impossible evidence A = n
(probability 0) produces raw scores 0, 0 and the ValueError. -/
theorem inferencia_probabilidad_total_cero_testigo :
    inferencia_por_enumeracion redCero "B" [("A", "n")] =
      .error (.valueError "La probabilidad total es 0") := by
  have hdist : distribucionCruda redCero "B" [("A", "n")] ["A", "B"] []
      ["y", "n"] = .ok [("y", 0), ("n", 0)] := by
    simp [distribucionCruda, enumerar_todas, sumaOculta, Nodo.probabilidad, clavePadres,
      pongaA, redCero, lookupA]
  exact inferencia_probabilidad_total_cero redCero "B" [("A", "n")]
    ⟨"B", ["y", "n"], [], [([], [("y", 1/2), ("n", 1/2)])]⟩ ["A", "B"]
    [("y", 0), ("n", 0)] rfl rfl hdist (by norm_num)

/-- Claim C6: for a node present in the network, setting a CPT row fails
with a ValueError exactly when the supplied probabilities deviate from 1
by more than 1e-6, leaving no modified network behind; otherwise it
stores the row under the parent-value key, overwriting any previous
row. -/
theorem definir_entrada_cpt_comprueba_suma (red : Red) (nombre : String)
    (vp : List String) (probs : List (String × ℚ)) (nodo : Nodo)
    (hn : lookupA red.nodos nombre = some nodo) :
    (abs ((probs.map (·.2)).sum - 1) > tolerancia →
      definir_entrada_cpt red nombre vp probs =
        .error (.valueError ("CPT para nodo " ++ nombre ++ " no suma 1"))) ∧
    (abs ((probs.map (·.2)).sum - 1) ≤ tolerancia →
      definir_entrada_cpt red nombre vp probs =
        .ok (conFilaCpt red nombre nodo vp probs)) := by
  constructor
  · intro hgt
    simp only [definir_entrada_cpt, hn]
    rw [if_pos hgt]
  · intro hle
    simp only [definir_entrada_cpt, hn]
    rw [if_neg (not_lt.mpr hle)]
    rfl

/-- Claim C6, witness: on the Rain node, a row summing to 0.9 and one
summing to 1.1 are rejected while one summing to 1.0000005 is accepted
and stored. -/
theorem definir_entrada_cpt_comprueba_suma_testigo :
    definir_entrada_cpt redRU "Rain" [] [("yes", 9/10)] =
      .error (.valueError ("CPT para nodo " ++ "Rain" ++ " no suma 1")) ∧
    definir_entrada_cpt redRU "Rain" [] [("yes", 1/2), ("no", 6/10)] =
      .error (.valueError ("CPT para nodo " ++ "Rain" ++ " no suma 1")) ∧
    definir_entrada_cpt redRU "Rain" [] [("yes", 1/2), ("no", 1/2 + 1/2000000)] =
      .ok (conFilaCpt redRU "Rain" nodoRain [] [("yes", 1/2), ("no", 1/2 + 1/2000000)]) := by
  refine ⟨?_, ?_, ?_⟩
  · exact (definir_entrada_cpt_comprueba_suma redRU "Rain" [] [("yes", 9/10)]
      nodoRain rfl).1 (by norm_num [tolerancia, lt_abs])
  · exact (definir_entrada_cpt_comprueba_suma redRU "Rain" []
      [("yes", 1/2), ("no", 6/10)] nodoRain rfl).1 (by norm_num [tolerancia, lt_abs])
  · exact (definir_entrada_cpt_comprueba_suma redRU "Rain" []
      [("yes", 1/2), ("no", 1/2 + 1/2000000)] nodoRain rfl).2
      (by norm_num [tolerancia, abs_le])

/-- Claim C7: provided every named parent is a node of the network,
validation succeeds exactly when every node has a nonempty domain, every
root has the empty tuple keyed in its CPT, every inner node has every
member of the Cartesian product of its parents' domains keyed in its
CPT, and every CPT row sums to 1 within 1e-6. -/
theorem validar_red_caracterizacion (red : Red) (hcl : ClausuradaPadres red) :
    validar_red red = .ok () ↔ ∀ xn ∈ red.nodos, NodoValidoSpec red xn.2 :=
  validar_red_ok_iff red hcl

/-- Claim C7, witness: the Rain network instantiates the
characterization, and both sides hold on it. -/
theorem validar_red_caracterizacion_testigo :
    ClausuradaPadres redRU ∧
    (validar_red redRU = .ok () ↔ ∀ xn ∈ redRU.nodos, NodoValidoSpec redRU xn.2) ∧
    (∀ xn ∈ redRU.nodos, NodoValidoSpec redRU xn.2) := by
  have hcl : ClausuradaPadres redRU := by
    simp only [ClausuradaPadres]
    decide
  have hiff := validar_red_caracterizacion redRU hcl
  exact ⟨hcl, hiff, hiff.mp redRU_valida⟩

/-- Claim C8 (counterexample): on the validated Rain network, evidence
assigning the out-of-domain value zz to the query variable itself does
not fail: the trial values of the query overwrite the evidence entry
(`condiciones_extendidas[variable_consulta] = valor`), so the call
returns the prior of Rain instead of a lookup error. -/
theorem evidencia_fuera_de_dominio_consulta_sin_error :
    validar_red redRU = .ok () ∧
    "zz" ∉ valoresDe redRU "Rain" ∧
    inferencia_por_enumeracion redRU "Rain" [("Rain", "zz")] =
      .ok [("yes", 1/5), ("no", 4/5)] := by
  refine ⟨redRU_valida, by decide, ?_⟩
  simp [inferencia_por_enumeracion, distribucionCruda, enumerar_todas, sumaOculta,
    Nodo.probabilidad, clavePadres, pongaA, orden_topologico, kahnLoop, kahnPaso, hijosDe,
    redRU, nodoRain, nodoUmbrella, lookupA]
  norm_num

/-- Claim C8 (amended): for a consistent, validated network whose
parents are all declared nodes and whose CPT rows key only declared
domain values, evidence assigning an out-of-domain value to a network
variable other than the query variable makes the query fail with a
KeyError raised by the CPT lookup. -/
theorem evidencia_fuera_de_dominio_da_keyError (red : Red) (q E v : String)
    (obs : List (String × String)) (nodoQ : Nodo) (ord : List String)
    (hcon : Consistente red)
    (hval : validar_red red = .ok ())
    (hcl : ClausuradaPadres red)
    (hdom : CptValoresEnDominio red)
    (hq : lookupA red.nodos q = some nodoQ)
    (hord : orden_topologico red = .ok ord)
    (hE : E ∈ claves red)
    (hEq : E ≠ q)
    (hobs : lookupA obs E = some v)
    (hv : v ∉ valoresDe red E) :
    ∃ m, inferencia_por_enumeracion red q obs = .error (.keyError m) := by
  have hspec := (validar_red_ok_iff red hcl).mp hval
  have hperm : ord.Perm (claves red) := (orden_topologico_sound red hcon ord hord).1
  have hvq : nodoQ.valores ≠ [] := (hspec (q, nodoQ) (lookupA_mem hq)).1
  cases hvals : nodoQ.valores with
  | nil => exact absurd hvals hvq
  | cons v0 vs =>
    cases hen : enumerar_todas red ord (pongaA obs q v0) with
    | error e =>
      obtain ⟨m, hm⟩ := enumerar_error ord (pongaA obs q v0) e hen
      refine ⟨m, ?_⟩
      rw [← hm]
      refine inferencia_error_de_enumerar hq hord ?_
      rw [hvals]
      exact cruda_error_cons hen
    | ok r =>
      exfalso
      have H : ∀ x ∈ ord, ∃ nodo, lookupA red.nodos x = some nodo ∧ nodo.valores ≠ [] ∧
          ∀ fila ∈ nodo.cpt, ∀ par ∈ fila.2, par.1 ∈ nodo.valores := by
        intro x hx
        have hxc : x ∈ claves red := hperm.mem_iff.mp hx
        obtain ⟨nodo, hn⟩ := Option.isSome_iff_exists.mp
          ((lookupA_isSome_iff red.nodos x).mpr hxc)
        exact ⟨nodo, hn, (hspec (x, nodo) (lookupA_mem hn)).1,
          fun fila hfila par hpar => hdom (x, nodo) (lookupA_mem hn) fila hfila par hpar⟩
      have hEord : E ∈ ord := hperm.mem_iff.mpr hE
      have hobs2 : lookupA (pongaA obs q v0) E = some v := by
        rw [lookupA_pongaA_ne obs q E v0 hEq]
        exact hobs
      exact hv (enumerar_ok_dominio ord (pongaA obs q v0) r H hen E v hEord hobs2)

/-- Claim C8 (amended), witness: on the Rain network, evidence
Umbrella = zz (a value outside the Umbrella domain) makes the query
for Rain fail with a KeyError. -/
theorem evidencia_fuera_de_dominio_da_keyError_testigo :
    ∃ m, inferencia_por_enumeracion redRU "Rain" [("Umbrella", "zz")] =
      .error (.keyError m) :=
  evidencia_fuera_de_dominio_da_keyError redRU "Rain" "Umbrella" "zz"
    [("Umbrella", "zz")] nodoRain ["Rain", "Umbrella"]
    redRU_consistente redRU_valida (by simp only [ClausuradaPadres]; decide)
    (by simp only [CptValoresEnDominio]; decide) rfl rfl (by decide) (by decide)
    rfl (by decide)

theorem claves_agregar_arista (red : Red) (padre hijo x : String)
    (hx : x = padre ∨ x = hijo ∨ x ∈ claves red) :
    x ∈ claves (agregar_arista red padre hijo) := by
  have hmem1 : x = padre ∨ x ∈ claves red →
      x ∈ (if (lookupA red.nodos padre).isSome then red.nodos
           else red.nodos ++ [(padre, ⟨padre, [], [], []⟩)]).map Prod.fst := by
    intro hc
    split
    · rename_i hs
      rcases hc with rfl | hc
      · rw [← lookupA_isSome_iff]; exact hs
      · exact hc
    · rcases hc with rfl | hc
      · simp
      · simp only [List.map_append]
        exact List.mem_append_left _ hc
  set n1 := (if (lookupA red.nodos padre).isSome then red.nodos
           else red.nodos ++ [(padre, ⟨padre, [], [], []⟩)]) with hn1
  have hmem2 : x ∈ (if (lookupA n1 hijo).isSome then n1
      else n1 ++ [(hijo, ⟨hijo, [], [], []⟩)]).map Prod.fst := by
    rcases hx with rfl | rfl | hc
    · have h1 := hmem1 (Or.inl rfl)
      split
      · exact h1
      · simp only [List.map_append]; exact List.mem_append_left _ h1
    · split
      · rename_i hs; rw [← lookupA_isSome_iff]; exact hs
      · simp
    · have h1 := hmem1 (Or.inr hc)
      split
      · exact h1
      · simp only [List.map_append]; exact List.mem_append_left _ h1
  set n2 := (if (lookupA n1 hijo).isSome then n1
      else n1 ++ [(hijo, ⟨hijo, [], [], []⟩)]) with hn2
  have hmem3 : x ∈ (match lookupA n2 hijo with
      | some nh => if padre ∈ nh.padres then n2
          else pongaA n2 hijo { nh with padres := nh.padres ++ [padre] }
      | none => n2).map Prod.fst := by
    split
    · split
      · exact hmem2
      · exact mem_keys_pongaA _ hmem2
    · exact hmem2
  exact hmem3

/-- Claim C9: for a name absent from the node dictionary, setting a CPT
row is a KeyError regardless of the supplied row (so before the
sum-to-1 check), whereas declaring a domain creates the node, and
adding an edge creates both endpoints when absent. -/
theorem definir_entrada_cpt_requiere_nodo_existente (red : Red) (nombre : String)
    (h : lookupA red.nodos nombre = none) :
    (∀ vp probs, definir_entrada_cpt red nombre vp probs = .error (.keyError nombre)) ∧
    (∀ valores, lookupA (definir_info_nodo red nombre valores).nodos nombre =
        some ⟨nombre, valores, [], []⟩) ∧
    (∀ otro, nombre ∈ claves (agregar_arista red nombre otro) ∧
      nombre ∈ claves (agregar_arista red otro nombre)) := by
  refine ⟨?_, ?_, ?_⟩
  · intro vp probs
    simp only [definir_entrada_cpt, h]
  · intro valores
    have hnodos : (definir_info_nodo red nombre valores).nodos
        = red.nodos ++ [(nombre, ⟨nombre, valores, [], []⟩)] := by
      simp only [definir_info_nodo, h]
    rw [hnodos, lookupA_append_of_none h]
    simp [lookupA_cons]
  · intro otro
    exact ⟨claves_agregar_arista red nombre otro nombre (Or.inl rfl),
      claves_agregar_arista red otro nombre nombre (Or.inr (Or.inl rfl))⟩

/-- Claim C9, witness: Nieve is not a node of the Rain network, so a CPT
row for it (even one summing to 2) is a KeyError, while declaring its
domain or drawing an edge to it creates it. -/
theorem definir_entrada_cpt_requiere_nodo_existente_testigo :
    definir_entrada_cpt redRU "Nieve" [] [("y", 2)] = .error (.keyError "Nieve") ∧
    lookupA (definir_info_nodo redRU "Nieve" ["y"]).nodos "Nieve" =
      some ⟨"Nieve", ["y"], [], []⟩ ∧
    "Nieve" ∈ claves (agregar_arista redRU "Rain" "Nieve") := by
  obtain ⟨h1, h2, h3⟩ := definir_entrada_cpt_requiere_nodo_existente redRU "Nieve" rfl
  exact ⟨h1 [] [("y", 2)], h2 ["y"], (h3 "Rain").2⟩

/-- Claim C10: validation never examines acyclicity: a consistent
network whose nodes all satisfy the per-node validation conditions
passes validation even when its parent/child relation has a directed
cycle, and the cycle surfaces only when the topological order is
computed. -/
theorem validar_red_ignora_ciclos (red : Red)
    (hcon : Consistente red) (hcl : ClausuradaPadres red)
    (hspec : ∀ xn ∈ red.nodos, NodoValidoSpec red xn.2)
    (hcyc : TieneCiclo red) :
    validar_red red = .ok () ∧
    orden_topologico red = .error (.valueError "La red tiene ciclos") :=
  ⟨(validar_red_ok_iff red hcl).mpr hspec, orden_topologico_ciclo red hcon hcyc⟩

/-- Claim C10, witness: the two-node cycle A <-> B with complete CPT
rows summing to 1 passes validation, while its topological order is the
cycle error. -/
theorem validar_red_ignora_ciclos_testigo :
    validar_red redCiclo = .ok () ∧
    orden_topologico redCiclo = .error (.valueError "La red tiene ciclos") := by
  have hcl : ClausuradaPadres redCiclo := by
    simp only [ClausuradaPadres]
    decide
  have hvalida : validar_red redCiclo = .ok () := by
    simp [validar_red, validarLista, validar_nodo, checaFilas, checaCombos, combosDesde,
      redCiclo, lookupA, tolerancia]
    norm_num
  have hcyc : TieneCiclo redCiclo :=
    ⟨"A", AlcanzaMas.paso (show Edge redCiclo "A" "B" by simp only [Edge]; decide)
      (AlcanzaMas.base (show Edge redCiclo "B" "A" by simp only [Edge]; decide))⟩
  exact validar_red_ignora_ciclos redCiclo redCiclo_consistente hcl
    ((validar_red_ok_iff redCiclo hcl).mp hvalida) hcyc
